import Mathlib

/-!
Verification of the CCF (simple columnar file format) implementation in
`custom_columnar.py`: the writer (`CCFWriter.write`), the reader
(`CCFReader._read_header`, `CCFReader.read_column`) and the type-inference
heuristic (`infer_type`).

Modelling conventions (shallow embedding):
* A byte is a `Nat` (< 256 wherever produced by the packers); a byte buffer
  is a `List Nat`.
* Python `str` values are modelled by their UTF-8 byte sequences, of type
  `List Nat`; the Python empty string is `[]`.  Under this representation
  `.encode('utf-8')` is the identity on its domain — the valid UTF-8
  sequences, exactly the images of Python strings, characterized by the
  `utf8Valid` checker — and `.decode('utf-8')` is the partial identity,
  failing (UnicodeDecodeError) on byte sequences that are not valid UTF-8.
* `struct.pack`/`struct.unpack` are modelled byte-exactly; the packers
  return `Option` because `struct.error` is raised for out-of-range values.
* The zlib codec and the `FLOAT64` text/IEEE-754 conversions are kept
  abstract in a `Codec` structure: theorems about round trips assume only
  `decompress (compress b) = some b`, which `zlib.decompress ∘ zlib.compress`
  satisfies.  The identity codec instantiates it for concrete witnesses.
* Fallible Python code (exceptions) is modelled with `Option`, all failure
  modes collapsing to `none`.
* Python's `int()` and `float()` text parsers are modelled on their ASCII
  fragment (ASCII whitespace, sign, digits, underscores, decimal point,
  exponent, inf/nan); non-ASCII digit characters are outside the model.
-/

namespace CCF

/-- A byte buffer: each element is one byte, a natural number below 256. -/
abbrev Bytes := List Nat

/-- Modelled from `MAGIC = b'CCFv1\x00\x00'` (7 bytes). -/
def MAGIC : Bytes := [67, 67, 70, 118, 49, 0, 0]

/-- Modelled from `VERSION = 1`. -/
def VERSION : Nat := 1

/-- dtype code of `DT_INT32 = 0`. -/
def DT_INT32 : Nat := 0

/-- dtype code of `DT_FLOAT64 = 1`. -/
def DT_FLOAT64 : Nat := 1

/-- dtype code of `DT_STRING = 2`. -/
def DT_STRING : Nat := 2

/-- Little-endian byte image of a `Nat` known to fit one byte. -/
def pu8 (x : Nat) : Bytes := [x % 256]

/-- Little-endian two-byte image. -/
def pu16 (x : Nat) : Bytes := [x % 256, x / 256 % 256]

/-- Little-endian four-byte image. -/
def pu32 (x : Nat) : Bytes :=
  [x % 256, x / 256 % 256, x / 65536 % 256, x / 16777216 % 256]

/-- Little-endian eight-byte image. -/
def pu64 (x : Nat) : Bytes :=
  [x % 256, x / 256 % 256, x / 65536 % 256, x / 16777216 % 256,
   x / 4294967296 % 256, x / 1099511627776 % 256,
   x / 281474976710656 % 256, x / 72057594037927936 % 256]

/-- Modelled from `struct.pack('<B', x)`: fails (struct.error) out of range. -/
def pack_u8 (x : Nat) : Option Bytes := if x < 2 ^ 8 then some (pu8 x) else none

/-- Modelled from `struct.pack('<H', x)`. -/
def pack_u16 (x : Nat) : Option Bytes := if x < 2 ^ 16 then some (pu16 x) else none

/-- Modelled from `struct.pack('<I', x)`. -/
def pack_u32 (x : Nat) : Option Bytes := if x < 2 ^ 32 then some (pu32 x) else none

/-- Modelled from `struct.pack('<Q', x)`. -/
def pack_u64 (x : Nat) : Option Bytes := if x < 2 ^ 64 then some (pu64 x) else none

/-- Modelled from `struct.pack('<i', x)`: two's-complement little-endian. -/
def pack_i32 (x : Int) : Option Bytes :=
  if -(2 ^ 31) ≤ x ∧ x < 2 ^ 31 then some (pu32 (x % 2 ^ 32).toNat) else none

/-- Little-endian read of the first byte. -/
def unp_u8 (l : Bytes) : Nat := l.getD 0 0

/-- Little-endian read of the first two bytes. -/
def unp_u16 (l : Bytes) : Nat := l.getD 0 0 + 256 * l.getD 1 0

/-- Little-endian read of the first four bytes. -/
def unp_u32 (l : Bytes) : Nat :=
  l.getD 0 0 + 256 * l.getD 1 0 + 65536 * l.getD 2 0 + 16777216 * l.getD 3 0

/-- Little-endian read of the first eight bytes. -/
def unp_u64 (l : Bytes) : Nat :=
  l.getD 0 0 + 256 * l.getD 1 0 + 65536 * l.getD 2 0 + 16777216 * l.getD 3 0 +
  4294967296 * l.getD 4 0 + 1099511627776 * l.getD 5 0 +
  281474976710656 * l.getD 6 0 + 72057594037927936 * l.getD 7 0

/-- Modelled from `struct.unpack('<i', ·)`: signed reading of a 32-bit word. -/
def decodeI32 (u : Nat) : Int := if u < 2 ^ 31 then (u : Int) else (u : Int) - 2 ^ 32

/-- Reading exactly `n` bytes from a stream; fails (as `struct.unpack` does)
when fewer are available.  Returns the bytes read and the remaining stream. -/
def readN (n : Nat) (l : Bytes) : Option (Bytes × Bytes) :=
  if n ≤ l.length then some (l.take n, l.drop n) else none

@[simp] theorem length_pu8 (x : Nat) : (pu8 x).length = 1 := rfl
@[simp] theorem length_pu16 (x : Nat) : (pu16 x).length = 2 := rfl
@[simp] theorem length_pu32 (x : Nat) : (pu32 x).length = 4 := rfl
@[simp] theorem length_pu64 (x : Nat) : (pu64 x).length = 8 := rfl

theorem unp_pu8 (x : Nat) (h : x < 2 ^ 8) : unp_u8 (pu8 x) = x := by
  have e : unp_u8 (pu8 x) = x % 256 := rfl
  rw [e]; omega

theorem unp_pu16 (x : Nat) (h : x < 2 ^ 16) : unp_u16 (pu16 x) = x := by
  have e : unp_u16 (pu16 x) = x % 256 + 256 * (x / 256 % 256) := rfl
  rw [e]; omega

theorem unp_pu32 (x : Nat) (h : x < 2 ^ 32) : unp_u32 (pu32 x) = x := by
  have e : unp_u32 (pu32 x) = x % 256 + 256 * (x / 256 % 256) +
      65536 * (x / 65536 % 256) + 16777216 * (x / 16777216 % 256) := rfl
  rw [e]; omega

theorem unp_pu64 (x : Nat) (h : x < 2 ^ 64) : unp_u64 (pu64 x) = x := by
  have e : unp_u64 (pu64 x) = x % 256 + 256 * (x / 256 % 256) +
      65536 * (x / 65536 % 256) + 16777216 * (x / 16777216 % 256) +
      4294967296 * (x / 4294967296 % 256) +
      1099511627776 * (x / 1099511627776 % 256) +
      281474976710656 * (x / 281474976710656 % 256) +
      72057594037927936 * (x / 72057594037927936 % 256) := rfl
  rw [e]; omega

theorem pack_u8_some {x : Nat} {b : Bytes} (h : pack_u8 x = some b) :
    x < 2 ^ 8 ∧ b = pu8 x := by
  by_cases hx : x < 2 ^ 8
  · have hb := h
    simp only [pack_u8, if_pos hx, Option.some.injEq] at hb
    exact ⟨hx, hb.symm⟩
  · rw [pack_u8, if_neg hx] at h; cases h

theorem pack_u16_some {x : Nat} {b : Bytes} (h : pack_u16 x = some b) :
    x < 2 ^ 16 ∧ b = pu16 x := by
  by_cases hx : x < 2 ^ 16
  · have hb := h
    simp only [pack_u16, if_pos hx, Option.some.injEq] at hb
    exact ⟨hx, hb.symm⟩
  · rw [pack_u16, if_neg hx] at h; cases h

theorem pack_u32_some {x : Nat} {b : Bytes} (h : pack_u32 x = some b) :
    x < 2 ^ 32 ∧ b = pu32 x := by
  by_cases hx : x < 2 ^ 32
  · have hb := h
    simp only [pack_u32, if_pos hx, Option.some.injEq] at hb
    exact ⟨hx, hb.symm⟩
  · rw [pack_u32, if_neg hx] at h; cases h

theorem pack_u64_some {x : Nat} {b : Bytes} (h : pack_u64 x = some b) :
    x < 2 ^ 64 ∧ b = pu64 x := by
  by_cases hx : x < 2 ^ 64
  · have hb := h
    simp only [pack_u64, if_pos hx, Option.some.injEq] at hb
    exact ⟨hx, hb.symm⟩
  · rw [pack_u64, if_neg hx] at h; cases h

theorem pack_i32_some {x : Int} {b : Bytes} (h : pack_i32 x = some b) :
    (-(2 ^ 31) ≤ x ∧ x < 2 ^ 31) ∧ b = pu32 (x % 2 ^ 32).toNat := by
  by_cases hx : -(2 ^ 31) ≤ x ∧ x < 2 ^ 31
  · have hb := h
    simp only [pack_i32, if_pos hx, Option.some.injEq] at hb
    exact ⟨hx, hb.symm⟩
  · rw [pack_i32, if_neg hx] at h; cases h

/-- Round trip for the signed 32-bit encoding: unpacking the packed word and
reading it back signed recovers the integer. -/
theorem decodeI32_pack {x : Int} {b : Bytes} (h : pack_i32 x = some b) :
    decodeI32 (unp_u32 b) = x := by
  obtain ⟨⟨hlo, hhi⟩, hb⟩ := pack_i32_some h
  have hm : (x % 2 ^ 32).toNat < 2 ^ 32 := by omega
  rw [hb, unp_pu32 _ hm]
  unfold decodeI32
  split <;> omega

theorem readN_exact {n : Nat} {a : Bytes} (b : Bytes) (h : a.length = n) :
    readN n (a ++ b) = some (a, b) := by
  subst h
  simp [readN, List.take_left, List.drop_left, Nat.le_add_right]

/-! ### Python text parsers (ASCII fragment)

`int(v)` and `float(v)` as used by `infer_type` and the writer.  A digit
part follows PEP 515: digits with single underscores strictly between
digits.  The scanner keeps a flag recording whether the previous byte was
an underscore still waiting for a digit. -/

/-- ASCII decimal digit test. -/
def isDigitB (b : Nat) : Bool := decide (48 ≤ b ∧ b ≤ 57)

/-- ASCII whitespace accepted by Python's `str.strip` inside `int()`/`float()`. -/
def isSpaceB (b : Nat) : Bool := b == 32 || b == 9 || b == 10 || b == 13 || b == 11 || b == 12

/-- Strip ASCII whitespace from both ends. -/
def pyStrip (l : Bytes) : Bytes :=
  ((l.dropWhile isSpaceB).reverse.dropWhile isSpaceB).reverse

/-- Split one optional leading sign; returns (isNegative, rest). -/
def splitSign : List Nat → Bool × List Nat
  | 43 :: r => (false, r)
  | 45 :: r => (true, r)
  | r => (false, r)

/-- Value accumulator over a digit part.  `afterUnd` records a pending
underscore that must be followed by a digit. -/
def goDigits (acc : Nat) (afterUnd : Bool) : List Nat → Option Nat
  | [] => if afterUnd then none else some acc
  | b :: rest =>
    if isDigitB b then goDigits (acc * 10 + (b - 48)) false rest
    else if b = 95 && !afterUnd then goDigits acc true rest
    else none

/-- A full digit part: nonempty, starts with a digit, underscores only
between digits; returns its decimal value. -/
def parseDigitPart (l : List Nat) : Option Nat :=
  match l with
  | b :: rest => if isDigitB b then goDigits (b - 48) false rest else none
  | [] => none

/-- Maximal-munch scan of a digit part; returns the unconsumed remainder
(an underscore not followed by a digit is left unconsumed). -/
def scanGo (afterUnd : Bool) : List Nat → List Nat
  | [] => if afterUnd then [95] else []
  | b :: rest =>
    if isDigitB b then scanGo false rest
    else if b = 95 && !afterUnd then scanGo true rest
    else if afterUnd then 95 :: b :: rest else b :: rest

/-- Scan a digit part from the head; fails unless the head is a digit. -/
def scanDigitPart (l : List Nat) : Option (List Nat) :=
  match l with
  | b :: rest => if isDigitB b then some (scanGo false rest) else none
  | [] => none

/-- ASCII lower-casing, for the case-insensitive parts of `float()`. -/
def toLowerB (b : Nat) : Nat := if 65 ≤ b ∧ b ≤ 90 then b + 32 else b

/-- Optional exponent part of a float literal (already lower-cased). -/
def expOk (l : List Nat) : Bool :=
  match l with
  | [] => true
  | 101 :: r =>
    let r2 := match r with
      | 43 :: t => t
      | 45 :: t => t
      | t => t
    match scanDigitPart r2 with
    | some [] => true
    | _ => false
  | _ => false

/-- Body of a float literal after sign stripping and lower-casing:
inf, infinity, nan, or a decimal with optional fraction and exponent. -/
def floatBody (l : List Nat) : Bool :=
  if l = [105, 110, 102] then true
  else if l = [105, 110, 102, 105, 110, 105, 116, 121] then true
  else if l = [110, 97, 110] then true
  else
    match scanDigitPart l with
    | some rest =>
      match rest with
      | 46 :: r2 =>
        (match scanDigitPart r2 with
         | some r3 => expOk r3
         | none => expOk r2)
      | _ => expOk rest
    | none =>
      match l with
      | 46 :: r2 =>
        (match scanDigitPart r2 with
         | some r3 => expOk r3
         | none => false)
      | _ => false

/-- Modelled from Python `int(v)` (base 10, ASCII fragment): strip
whitespace, optional sign, digit part with underscores. -/
def pyIntParse (v : Bytes) : Option Int :=
  (parseDigitPart (splitSign (pyStrip v)).2).map
    (fun m => if (splitSign (pyStrip v)).1 then -(m : Int) else (m : Int))

/-- Modelled from Python `float(v)` (ASCII fragment), success only:
the writer and `infer_type` need just the try/except outcome. -/
def pyFloatOk (v : Bytes) : Bool :=
  floatBody ((splitSign (pyStrip v)).2.map toLowerB)

/-! ### Type inference (`infer_type`, custom_columnar.py lines 32-51) -/

/-- One step of the `is_int`/`is_float` flag loop of `infer_type`: empty
values are skipped; on `int(v)` failure `is_int` is cleared and `float(v)`
is tried, clearing `is_float` on failure. -/
def inferStep (flags : Bool × Bool) (v : Bytes) : Bool × Bool :=
  if v = [] then flags
  else if (pyIntParse v).isSome then flags
  else (false, if pyFloatOk v then flags.2 else false)

/-- Modelled from `infer_type(values)`. -/
def infer_type (values : List Bytes) : Nat :=
  match values.foldl inferStep (true, true) with
  | (is_int, is_float) =>
    if is_int then DT_INT32 else if is_float then DT_FLOAT64 else DT_STRING

/-- Spec-side condition: every non-empty value parses as a base-10 signed
integer. -/
def specAllInt (values : List Bytes) : Bool :=
  values.all (fun v => v == [] || (pyIntParse v).isSome)

/-- Spec-side condition: every non-empty value parses as a decimal float. -/
def specAllFloat (values : List Bytes) : Bool :=
  values.all (fun v => v == [] || pyFloatOk v)

/-- Modelled from the spec's inference rule (§4.1), word for word: INT32 if
all non-empty values are integers, else FLOAT64 if all are floats, else
STRING; an all-empty column falls vacuously into INT32. -/
def spec_infer_type (values : List Bytes) : Nat :=
  if specAllInt values then DT_INT32
  else if specAllFloat values then DT_FLOAT64
  else DT_STRING

theorem goDigits_chars {l : List Nat} :
    ∀ {acc : Nat} {aU : Bool} {m : Nat}, goDigits acc aU l = some m →
      l.map toLowerB = l ∧ scanGo aU l = [] := by
  induction l with
  | nil =>
    intro acc aU m h
    cases aU
    · simp [goDigits] at h; simp [scanGo]
    · simp [goDigits] at h
  | cons b rest ih =>
    intro acc aU m h
    by_cases hd : isDigitB b
    · have hb : 48 ≤ b ∧ b ≤ 57 := by simpa [isDigitB] using hd
      rw [goDigits, if_pos hd] at h
      obtain ⟨hmap, hscan⟩ := ih h
      refine ⟨?_, ?_⟩
      · simp [List.map_cons, hmap, toLowerB]; omega
      · simp [scanGo, hd, hscan]
    · rw [goDigits, if_neg hd] at h
      by_cases hu : b = 95 && !aU
      · rw [if_pos hu] at h
        obtain ⟨hmap, hscan⟩ := ih h
        simp only [Bool.and_eq_true, decide_eq_true_eq, Bool.not_eq_true'] at hu
        obtain ⟨hb95, haU⟩ := hu
        subst hb95; subst haU
        refine ⟨?_, ?_⟩
        · rw [List.map_cons, hmap]
          have e : toLowerB 95 = 95 := by decide
          rw [e]
        · rw [scanGo]
          have e : isDigitB 95 = false := by decide
          simp [e, hscan]
      · rw [if_neg hu] at h
        cases h

theorem int_imp_float (v : Bytes) (h : (pyIntParse v).isSome) :
    pyFloatOk v = true := by
  unfold pyIntParse at h
  unfold pyFloatOk
  rcases hp : parseDigitPart (splitSign (pyStrip v)).2 with _ | m
  · rw [hp] at h; simp at h
  · clear h
    rcases hl : (splitSign (pyStrip v)).2 with _ | ⟨b, rest⟩
    · rw [hl] at hp; simp [parseDigitPart] at hp
    · rw [hl] at hp
      rw [parseDigitPart] at hp
      by_cases hd : isDigitB b
      · rw [if_pos hd] at hp
        have hb : 48 ≤ b ∧ b ≤ 57 := by simpa [isDigitB] using hd
        obtain ⟨hmap, hscan⟩ := goDigits_chars hp
        have hbl : toLowerB b = b := by unfold toLowerB; split <;> omega
        rw [List.map_cons, hbl, hmap]
        unfold floatBody
        rw [if_neg (by intro hc; rw [List.cons.injEq] at hc; omega),
            if_neg (by intro hc; rw [List.cons.injEq] at hc; omega),
            if_neg (by intro hc; rw [List.cons.injEq] at hc; omega)]
        rw [scanDigitPart, if_pos hd, hscan]
        rfl
      · rw [if_neg hd] at hp; cases hp

theorem inferFold (values : List Bytes) : ∀ a b : Bool,
    values.foldl inferStep (a, b) =
      (a && specAllInt values,
       b && values.all (fun v => v == [] || (pyIntParse v).isSome || pyFloatOk v)) := by
  induction values with
  | nil => intro a b; simp [specAllInt]
  | cons v vs ih =>
    intro a b
    rw [List.foldl_cons]
    by_cases hv : v = []
    · rw [inferStep, if_pos hv, ih]
      simp [specAllInt, hv]
    · rw [inferStep, if_neg hv]
      by_cases hi : (pyIntParse v).isSome
      · rw [if_pos hi, ih]
        simp [specAllInt, hv, hi]
      · rw [if_neg hi, ih]
        by_cases hf : pyFloatOk v
        · simp [specAllInt, hv, hi, hf]
        · simp [specAllInt, hv, hi, hf]

theorem infer_type_eq_spec (values : List Bytes) :
    infer_type values = spec_infer_type values := by
  unfold infer_type spec_infer_type
  rw [inferFold values true true]
  simp only [Bool.true_and]
  by_cases hint : specAllInt values
  · simp [hint]
  · have hall : values.all (fun v => v == [] || (pyIntParse v).isSome || pyFloatOk v)
        = specAllFloat values := by
      unfold specAllFloat
      refine congrArg values.all (funext fun v => ?_)
      cases hf : pyFloatOk v
      · cases hi : (pyIntParse v).isSome
        · simp
        · exact absurd (int_imp_float v (by simp [hi])) (by simp [hf])
      · simp
    simp only [hint, if_false, Bool.false_eq_true, hall]

/-- C4: `infer_type` follows the spec rule: INT32 when every non-empty
value parses as a base-10 signed integer, otherwise FLOAT64 when every
non-empty value parses as a decimal float, otherwise STRING (this is
`spec_infer_type`, the spec's §4.1 rule verbatim); and a sequence whose
values are all empty strings yields INT32. -/
theorem claim_c4_infer_type (values : List Bytes) (n : Nat) :
    infer_type values = spec_infer_type values ∧
    infer_type (List.replicate n []) = DT_INT32 := by
  refine ⟨infer_type_eq_spec values, ?_⟩
  rw [infer_type_eq_spec]
  unfold spec_infer_type
  have h : specAllInt (List.replicate n []) = true := by
    unfold specAllInt
    rw [List.all_eq_true]
    intro v hv
    rw [List.eq_of_mem_replicate hv]
    simp
  rw [h]; rfl

/-- C7 counterexample: the value 3000000000 (text, ten ASCII digits)
exceeds 2^31 - 1 and parses as an integer, yet `infer_type` returns INT32,
not FLOAT64: `infer_type` has no 32-bit range check. -/
theorem claim_c7_counterexample :
    pyIntParse [51, 48, 48, 48, 48, 48, 48, 48, 48, 48] = some 3000000000 ∧
    ((2 : Int) ^ 31 - 1 < 3000000000) ∧
    infer_type [[51, 48, 48, 48, 48, 48, 48, 48, 48, 48]] = DT_INT32 ∧
    DT_INT32 ≠ DT_FLOAT64 := by
  exact ⟨by decide, by decide, by decide, by decide⟩

/-- C7 amended: for every sequence of text values in which every non-empty
value parses as a base-10 signed integer, `infer_type` returns INT32 even
when some parsed value lies outside the signed 32-bit range: out-of-range
integers do not fall through to FLOAT64. -/
theorem claim_c7_amended (values : List Bytes)
    (hint : ∀ v ∈ values, v ≠ [] → (pyIntParse v).isSome = true)
    (hbig : ∃ v ∈ values, ∃ n : Int,
      pyIntParse v = some n ∧ (n < -(2 ^ 31) ∨ 2 ^ 31 - 1 < n)) :
    infer_type values = DT_INT32 := by
  rw [infer_type_eq_spec]
  unfold spec_infer_type
  have h : specAllInt values = true := by
    unfold specAllInt
    rw [List.all_eq_true]
    intro v hv
    by_cases hv0 : v = []
    · simp [hv0]
    · simp [hint v hv hv0, hv0]
  rw [h]; rfl

/-- Witness for the C7 amended theorem at the concrete out-of-range input. -/
theorem claim_c7_amended_witness :
    (∀ v ∈ [[51, 48, 48, 48, 48, 48, 48, 48, 48, 48]],
      v ≠ ([] : Bytes) → (pyIntParse v).isSome = true) ∧
    (∃ v ∈ [[51, 48, 48, 48, 48, 48, 48, 48, 48, 48]], ∃ n : Int,
      pyIntParse v = some n ∧ (n < -(2 ^ 31) ∨ 2 ^ 31 - 1 < n)) ∧
    infer_type [[51, 48, 48, 48, 48, 48, 48, 48, 48, 48]] = DT_INT32 := by
  refine ⟨by decide,
    ⟨[51, 48, 48, 48, 48, 48, 48, 48, 48, 48], by decide, 3000000000, by decide, by decide⟩, ?_⟩
  exact claim_c7_amended _ (by decide)
    ⟨[51, 48, 48, 48, 48, 48, 48, 48, 48, 48], by decide, 3000000000, by decide, by decide⟩

/-! ### The abstract codec

zlib compression and the FLOAT64 text/IEEE-754 conversions are kept
abstract: round-trip theorems assume only `decompress (compress b) = some b`
(which zlib satisfies; its failures on foreign input are the `none` case),
and nothing at all about the float functions.  `floatBytes v` models
`struct.pack('<d', float(v))` for non-empty `v` (`none` when `float(v)`
raises); `floatRepr b` models `repr(struct.unpack('<d', b)[0])`. -/

structure Codec where
  compress : Bytes → Bytes
  decompress : Bytes → Option Bytes
  floatBytes : Bytes → Option Bytes
  floatRepr : Bytes → Bytes

/-- The identity codec, used to instantiate witnesses: `compress` is the
identity (a legal stand-in, since only the inverse law is ever assumed). -/
def idCodec : Codec where
  compress := fun b => b
  decompress := fun b => some b
  floatBytes := fun _ => some (List.replicate 8 0)
  floatRepr := fun _ => []

/-! ### UTF-8 validity

`bytes.decode('utf-8')` succeeds exactly on valid (strict, RFC 3629) UTF-8:
no bytes C0, C1 or F5..FF, continuation bytes 80..BF, no overlong forms
(E0 needs A0.., F0 needs 90..), no surrogates (ED caps at 9F) and nothing
above U+10FFFF (F4 caps at 8F).  A byte list satisfying this is the image
of exactly one Python `str`. -/

/-- A UTF-8 continuation byte, 80..BF. -/
def utf8Cont (b : Nat) : Bool := 128 ≤ b && b < 192

/-- Strict UTF-8 validity, the success domain of `bytes.decode('utf-8')`
and the image of `str.encode('utf-8')`; the fuel argument (any bound on
the list length: each step consumes at least one byte) makes the
recursion structural. -/
def utf8ValidAux : Nat → Bytes → Bool
  | _, [] => true
  | 0, _ :: _ => false
  | fuel + 1, b :: rest =>
    if b < 128 then utf8ValidAux fuel rest
    else if 194 ≤ b && b ≤ 223 then
      match rest with
      | b2 :: r2 => utf8Cont b2 && utf8ValidAux fuel r2
      | [] => false
    else if b = 224 then
      match rest with
      | b2 :: b3 :: r2 => (160 ≤ b2 && b2 < 192) && utf8Cont b3 && utf8ValidAux fuel r2
      | _ => false
    else if 225 ≤ b && b ≤ 236 then
      match rest with
      | b2 :: b3 :: r2 => utf8Cont b2 && utf8Cont b3 && utf8ValidAux fuel r2
      | _ => false
    else if b = 237 then
      match rest with
      | b2 :: b3 :: r2 => (128 ≤ b2 && b2 < 160) && utf8Cont b3 && utf8ValidAux fuel r2
      | _ => false
    else if 238 ≤ b && b ≤ 239 then
      match rest with
      | b2 :: b3 :: r2 => utf8Cont b2 && utf8Cont b3 && utf8ValidAux fuel r2
      | _ => false
    else if b = 240 then
      match rest with
      | b2 :: b3 :: b4 :: r2 =>
        (144 ≤ b2 && b2 < 192) && utf8Cont b3 && utf8Cont b4 && utf8ValidAux fuel r2
      | _ => false
    else if 241 ≤ b && b ≤ 243 then
      match rest with
      | b2 :: b3 :: b4 :: r2 => utf8Cont b2 && utf8Cont b3 && utf8Cont b4 && utf8ValidAux fuel r2
      | _ => false
    else if b = 244 then
      match rest with
      | b2 :: b3 :: b4 :: r2 =>
        (128 ≤ b2 && b2 < 144) && utf8Cont b3 && utf8Cont b4 && utf8ValidAux fuel r2
      | _ => false
    else false

/-- Strict UTF-8 validity of a byte list. -/
def utf8Valid (s : Bytes) : Bool := utf8ValidAux s.length s

/-! ### Writer (`CCFWriter.write`, custom_columnar.py lines 66-179) -/

/-- Column metadata as carried in the header directory. -/
structure ColumnMeta where
  name : Bytes
  dtype : Nat
  offset : Nat
  compressed_size : Nat
  uncompressed_size : Nat
deriving DecidableEq

instance : Inhabited ColumnMeta := ⟨⟨[], 0, 0, 0, 0⟩⟩

/-- Row transposition: `cols_values[i][r] = rows[r][i] if i < len(rows[r])
else ''` (lines 71-75). -/
def transpose (numCols : Nat) (rows : List (List Bytes)) : List (List Bytes) :=
  (List.range numCols).map (fun i => rows.map (fun r => r.getD i []))

/-- One byte of the null bitmap from its eight bit values. -/
def byteOfBits (f : Nat → Bool) : Nat :=
  (List.range 8).foldl (fun acc b => acc + (if f b then 2 ^ b else 0)) 0

/-- Row `i` is null iff its value is the empty string (lines 86-90). -/
def isNullIdx (values : List Bytes) (i : Nat) : Bool :=
  decide (i < values.length ∧ values.getD i [] = [])

/-- The null bitmap: `(R+7)/8` bytes, bit `i` set iff row `i` is null
(lines 84-90). -/
def nullBitmap (R : Nat) (values : List Bytes) : Bytes :=
  (List.range ((R + 7) / 8)).map (fun j => byteOfBits (fun b => isNullIdx values (8 * j + b)))

/-- INT32 payload: for each value, 4 bytes: zero for nulls, otherwise
`struct.pack('<i', int(v))` (lines 96-101); `none` models the exceptions of
`int(v)` and of `struct.pack` on out-of-range values. -/
def encInts : List Bytes → Option Bytes
  | [] => some []
  | v :: vs => do
    let b ← if v = [] then pack_i32 0 else do
      let n ← pyIntParse v
      pack_i32 n
    let rest ← encInts vs
    pure (b ++ rest)

/-- FLOAT64 payload: 8 zero bytes (the encoding of 0.0) for nulls,
otherwise the abstract `floatBytes` (lines 102-107). -/
def encFloats (codec : Codec) : List Bytes → Option Bytes
  | [] => some []
  | v :: vs => do
    let b ← if v = [] then some (List.replicate 8 0) else codec.floatBytes v
    let rest ← encFloats codec vs
    pure (b ++ rest)

/-- The STRING offsets/payload accumulation loop (lines 109-117): returns
the offsets appended after the initial 0, and the string payload. -/
def strEnc (cur : Nat) : List Bytes → List Nat × Bytes
  | [] => ([], [])
  | v :: vs =>
    if v = [] then
      let p := strEnc cur vs
      (cur :: p.1, p.2)
    else
      let p := strEnc (cur + v.length) vs
      ((cur + v.length) :: p.1, v ++ p.2)

/-- Pack a list of offsets as consecutive u32 words (lines 119-120). -/
def packOffsets : List Nat → Option Bytes
  | [] => some []
  | o :: os => do
    let b ← pack_u32 o
    let rest ← packOffsets os
    pure (b ++ rest)

/-- The uncompressed column block: u32 bitmap length, bitmap, then the
typed payload (lines 92-123); `none` for unknown dtypes (line 123).  The
STRING branch applies `v.encode('utf-8')` (line 115), whose domain in the
byte model is the valid UTF-8 sequences — a byte list failing `utf8Valid`
is the image of no Python string, hence outside the writer's domain. -/
def encodeColumn (codec : Codec) (R : Nat) (dtype : Nat) (values : List Bytes) :
    Option Bytes := do
  let bitmap := nullBitmap R values
  let lenB ← pack_u32 bitmap.length
  let payload ←
    if dtype = DT_INT32 then encInts values
    else if dtype = DT_FLOAT64 then encFloats codec values
    else if dtype = DT_STRING then
      if values.all utf8Valid then do
        let p := strEnc 0 values
        let offsB ← packOffsets (0 :: p.1)
        pure (offsB ++ p.2)
      else none
    else none
  pure (lenB ++ bitmap ++ payload)

/-- A compressed column block before offsets are known. -/
structure Block where
  name : Bytes
  dtype : Nat
  comp : Bytes
  uncompressed_size : Nat
deriving DecidableEq

/-- Encode and compress every column in schema order (lines 78-132). -/
def encodeBlocks (codec : Codec) (R : Nat) :
    List ((Bytes × Nat) × List Bytes) → Option (List Block)
  | [] => some []
  | ((name, dtype), values) :: rest => do
    let un ← encodeColumn codec R dtype values
    let tl ← encodeBlocks codec R rest
    pure (⟨name, dtype, codec.compress un, un.length⟩ :: tl)

/-- Assign each column its absolute file offset: a running offset starting
at `start`, advanced by each compressed size (lines 149-155). -/
def assignMetas (start : Nat) : List Block → List ColumnMeta
  | [] => []
  | b :: bs =>
    ⟨b.name, b.dtype, start, b.comp.length, b.uncompressed_size⟩ ::
      assignMetas (start + b.comp.length) bs

/-- One header directory entry: u16 name length, name bytes, u8 dtype,
u64 offset, u64 compressed size, u64 uncompressed size (lines 136-144). -/
def headerEntry (m : ColumnMeta) : Option Bytes := do
  let ln ← pack_u16 m.name.length
  let d ← pack_u8 m.dtype
  let ob ← pack_u64 m.offset
  let cb ← pack_u64 m.compressed_size
  let ub ← pack_u64 m.uncompressed_size
  pure (ln ++ m.name ++ d ++ ob ++ cb ++ ub)

/-- The header directory: all entries back to back. -/
def buildHeader : List ColumnMeta → Option Bytes
  | [] => some []
  | m :: ms => do
    let e ← headerEntry m
    let r ← buildHeader ms
    pure (e ++ r)

/-- Result of a write: the file bytes, plus the computed column metadata and
header size (the values the writer records in the header). -/
structure WriteResult where
  file : Bytes
  metas : List ColumnMeta
  header_size : Nat
deriving DecidableEq

instance : Inhabited WriteResult := ⟨⟨[], [], 0⟩⟩

/-- Modelled from `CCFWriter.write(header_cols, rows)` (lines 66-179):
transpose, encode and compress each column, build the header twice (first
with placeholder offsets to learn its size, then with final offsets
starting at `22 + header_size`), then emit magic, version, header size,
row count, column count, header, and the concatenated blocks. -/
def write (codec : Codec) (schema : List (Bytes × Nat)) (rows : List (List Bytes)) :
    Option WriteResult := do
  let R := rows.length
  let cols := transpose schema.length rows
  let blocks ← encodeBlocks codec R (schema.zip cols)
  let header1 ← buildHeader (assignMetas 0 blocks |>.map (fun m => { m with offset := 0 }))
  let metas := assignMetas (22 + header1.length) blocks
  let header ← buildHeader metas
  let vb ← pack_u8 VERSION
  let hb ← pack_u32 header.length
  let rb ← pack_u64 R
  let cb ← pack_u16 metas.length
  pure ⟨MAGIC ++ vb ++ hb ++ rb ++ cb ++ header ++ (blocks.map Block.comp).flatten,
        metas, header.length⟩

/-- Reversed decimal digits (as ASCII bytes) of a positive natural; the
first argument is fuel (structural), always called with fuel = n. -/
def natDigitsRevAux : Nat → Nat → List Nat
  | 0, _ => []
  | _ + 1, 0 => []
  | fuel + 1, n + 1 => ((n + 1) % 10 + 48) :: natDigitsRevAux fuel ((n + 1) / 10)

/-- Reversed decimal digits (as ASCII bytes) of a positive natural. -/
def natDigitsRev (n : Nat) : List Nat := natDigitsRevAux n n

/-- Modelled from Python `str(v)` for `v : int`: canonical base-10 text,
with a leading minus sign for negatives. -/
def intToDecBytes (x : Int) : Bytes :=
  if x < 0 then 45 :: (natDigitsRev x.natAbs).reverse
  else if x = 0 then [48]
  else (natDigitsRev x.toNat).reverse

/-! ### Reader (`CCFReader`, custom_columnar.py lines 181-258) -/

/-- Reader state after construction: prefix fields plus the header
directory in file order. -/
structure ReaderState where
  num_rows : Nat
  num_cols : Nat
  columns_meta : List ColumnMeta
deriving DecidableEq

/-- Parse one header directory entry (lines 203-213).  Name slicing clamps
(Python slice semantics); running past the end of the header bytes fails
(struct.unpack_from raises). -/
def parseEntry (l : Bytes) : Option (ColumnMeta × Bytes) := do
  let (nl, l) ← readN 2 l
  let name_len := unp_u16 nl
  let name := l.take name_len
  let l := l.drop name_len
  let (db, l) ← readN 1 l
  let (ob, l) ← readN 8 l
  let (cs, l) ← readN 8 l
  let (us, l) ← readN 8 l
  pure (⟨name, unp_u8 db, unp_u64 ob, unp_u64 cs, unp_u64 us⟩, l)

/-- Parse `n` consecutive header entries (lines 200-213). -/
def parseEntries : Nat → Bytes → Option (List ColumnMeta)
  | 0, _ => some []
  | n + 1, l => do
    let (m, rest) ← parseEntry l
    let ms ← parseEntries n rest
    pure (m :: ms)

/-- Modelled from `CCFReader._read_header` (lines 189-214): validate the
magic, read the version byte (the source never checks it), header size,
row count, column count, then the directory.  `f.read` clamps short reads;
every subsequent exact read failure raises, modelled by `none`. -/
def read_header (file : Bytes) : Option ReaderState :=
  if file.take 7 ≠ MAGIC then none
  else do
    let l := file.drop 7
    let (_vb, l) ← readN 1 l
    let (hb, l) ← readN 4 l
    let header_size := unp_u32 hb
    let (rb, l) ← readN 8 l
    let num_rows := unp_u64 rb
    let (cb, l) ← readN 2 l
    let num_cols := unp_u16 cb
    let header_bytes := l.take header_size
    let metas ← parseEntries num_cols header_bytes
    pure ⟨num_rows, num_cols, metas⟩

/-- Modelled from `is_null` (lines 234-237): bit `i % 8` of bitmap byte
`i / 8`; an out-of-range byte index raises IndexError (`none`). -/
def is_null (bitmap : Bytes) (i : Nat) : Option Bool :=
  (bitmap.get? (i / 8)).map (fun B => decide (B / 2 ^ (i % 8) % 2 = 1))

/-- INT32 read loop (lines 239-242): `R` iterations, each reading 4 bytes,
emitting `none` for null rows and the decimal text of the signed value
otherwise. -/
def readIntLoop (bitmap : Bytes) : Nat → Nat → Bytes → Option (List (Option Bytes))
  | _, 0, _ => some []
  | i, n + 1, buf => do
    let (vb, buf) ← readN 4 buf
    let nl ← is_null bitmap i
    let cell := if nl then none else some (intToDecBytes (decodeI32 (unp_u32 vb)))
    let rest ← readIntLoop bitmap (i + 1) n buf
    pure (cell :: rest)

/-- FLOAT64 read loop (lines 243-246): 8 bytes per row; non-null cells
render through the abstract `floatRepr`. -/
def readFloatLoop (codec : Codec) (bitmap : Bytes) :
    Nat → Nat → Bytes → Option (List (Option Bytes))
  | _, 0, _ => some []
  | i, n + 1, buf => do
    let (vb, buf) ← readN 8 buf
    let nl ← is_null bitmap i
    let cell := if nl then none else some (codec.floatRepr vb)
    let rest ← readFloatLoop codec bitmap (i + 1) n buf
    pure (cell :: rest)

/-- Read `n` consecutive u32 offsets (line 248). -/
def readOffsets : Nat → Bytes → Option (List Nat × Bytes)
  | 0, buf => some ([], buf)
  | n + 1, buf => do
    let (ob, buf) ← readN 4 buf
    let p ← readOffsets n buf
    pure (unp_u32 ob :: p.1, p.2)

/-- STRING row loop (lines 250-255): null rows yield `none`; other rows
slice `concat[offsets[i] : offsets[i+1]]` with Python's clamping slice
semantics and decode it — `.decode('utf-8')` is the partial identity of
the byte model, raising UnicodeDecodeError (`none`) when the sliced bytes
are not valid UTF-8. -/
def readStrCells (bitmap : Bytes) (offs : List Nat) (concat : Bytes) :
    Nat → Nat → Option (List (Option Bytes))
  | _, 0 => some []
  | i, n + 1 => do
    let nl ← is_null bitmap i
    let s := (concat.drop (offs.getD i 0)).take (offs.getD (i + 1) 0 - offs.getD i 0)
    let cell ← if nl then some none
      else if utf8Valid s then some (some s) else none
    let rest ← readStrCells bitmap offs concat (i + 1) n
    pure (cell :: rest)

/-- Modelled from `CCFReader.read_column` (lines 219-258) given the header
state: find the first metadata entry with the requested name (KeyError if
none), extract and decompress its block, read the bitmap, then decode by
dtype. -/
def read_column (codec : Codec) (file : Bytes) (st : ReaderState) (colName : Bytes) :
    Option (List (Option Bytes)) := do
  let meta ← st.columns_meta.find? (fun m => m.name == colName)
  let comp := (file.drop meta.offset).take meta.compressed_size
  let un ← codec.decompress comp
  let (nbb, buf) ← readN 4 un
  let nb_len := unp_u32 nbb
  let null_bitmap := buf.take nb_len
  let buf := buf.drop nb_len
  if meta.dtype = DT_INT32 then
    readIntLoop null_bitmap 0 st.num_rows buf
  else if meta.dtype = DT_FLOAT64 then
    readFloatLoop codec null_bitmap 0 st.num_rows buf
  else if meta.dtype = DT_STRING then do
    let p ← readOffsets (st.num_rows + 1) buf
    readStrCells null_bitmap p.1 p.2 0 st.num_rows
  else none

/-- Reader construction followed by `read_column`, as a single pipeline. -/
def openAndRead (codec : Codec) (file : Bytes) (colName : Bytes) :
    Option (List (Option Bytes)) := do
  let st ← read_header file
  read_column codec file st colName

/-- Write followed by a selective column read. -/
def writeRead (codec : Codec) (schema : List (Bytes × Nat)) (rows : List (List Bytes))
    (colName : Bytes) : Option (List (Option Bytes)) := do
  let res ← write codec schema rows
  openAndRead codec res.file colName

/-! ### Bitmap lemmas -/

theorem byteOfBits_bit (f : Nat → Bool) (k : Nat) (hk : k < 8) :
    byteOfBits f / 2 ^ k % 2 = (if f k then 1 else 0) := by
  have e : byteOfBits f =
      0 + (if f 0 then 1 else 0) + (if f 1 then 2 else 0) + (if f 2 then 4 else 0) +
      (if f 3 then 8 else 0) + (if f 4 then 16 else 0) + (if f 5 then 32 else 0) +
      (if f 6 then 64 else 0) + (if f 7 then 128 else 0) := rfl
  have g1 : (if f 1 then 2 else 0) = 2 * (if f 1 then 1 else 0) := by split <;> rfl
  have g2 : (if f 2 then 4 else 0) = 4 * (if f 2 then 1 else 0) := by split <;> rfl
  have g3 : (if f 3 then 8 else 0) = 8 * (if f 3 then 1 else 0) := by split <;> rfl
  have g4 : (if f 4 then 16 else 0) = 16 * (if f 4 then 1 else 0) := by split <;> rfl
  have g5 : (if f 5 then 32 else 0) = 32 * (if f 5 then 1 else 0) := by split <;> rfl
  have g6 : (if f 6 then 64 else 0) = 64 * (if f 6 then 1 else 0) := by split <;> rfl
  have g7 : (if f 7 then 128 else 0) = 128 * (if f 7 then 1 else 0) := by split <;> rfl
  have b0 : (if f 0 then 1 else 0) ≤ 1 := by split <;> omega
  have b1 : (if f 1 then 1 else 0) ≤ 1 := by split <;> omega
  have b2 : (if f 2 then 1 else 0) ≤ 1 := by split <;> omega
  have b3 : (if f 3 then 1 else 0) ≤ 1 := by split <;> omega
  have b4 : (if f 4 then 1 else 0) ≤ 1 := by split <;> omega
  have b5 : (if f 5 then 1 else 0) ≤ 1 := by split <;> omega
  have b6 : (if f 6 then 1 else 0) ≤ 1 := by split <;> omega
  have b7 : (if f 7 then 1 else 0) ≤ 1 := by split <;> omega
  rw [e, g1, g2, g3, g4, g5, g6, g7]
  interval_cases k <;> omega

theorem isNullIdx_lt {values : List Bytes} {k : Nat} (hk : k < values.length) :
    isNullIdx values k = decide (values.getD k [] = []) := by
  unfold isNullIdx
  simp [hk]

theorem is_null_nullBitmap (R : Nat) (values : List Bytes) (i : Nat) (hi : i < R) :
    is_null (nullBitmap R values) i = some (isNullIdx values i) := by
  unfold is_null nullBitmap
  have hj : i / 8 < (R + 7) / 8 := by omega
  rw [List.get?_map, List.get?_range hj]
  have e : 8 * (i / 8) + i % 8 = i := by omega
  simp only [Option.map_some']
  rw [byteOfBits_bit _ (i % 8) (by omega), e]
  rcases h : isNullIdx values i <;> simp [h]


/-! ### INT32 column round trip -/

theorem readIntLoop_enc (values : List Bytes) : ∀ (payload z bitmap : Bytes) (i : Nat),
    encInts values = some payload →
    (∀ k, k < values.length → is_null bitmap (i + k) = some (decide (values.getD k [] = []))) →
    readIntLoop bitmap i values.length (payload ++ z) =
      some (values.map (fun v => if v = [] then none else (pyIntParse v).map intToDecBytes)) := by
  induction values with
  | nil =>
    intro payload z bitmap i h _
    simp only [encInts, Option.some.injEq] at h
    subst h
    simp [readIntLoop]
  | cons v vs ih =>
    intro payload z bitmap i h hbm
    rw [encInts] at h
    have hnl : is_null bitmap i = some (decide (v = [])) := by
      have := hbm 0 (by simp)
      simpa using this
    have hih : ∀ rest, encInts vs = some rest →
        readIntLoop bitmap (i + 1) vs.length (rest ++ z) =
          some (vs.map (fun v => if v = [] then none else (pyIntParse v).map intToDecBytes)) := by
      intro rest hrest
      refine ih rest z bitmap (i + 1) hrest (fun k hk => ?_)
      have hm := hbm (k + 1) (by simp; omega)
      have e : i + (k + 1) = i + 1 + k := by omega
      rw [e] at hm
      simpa using hm
    have hlen : (v :: vs).length = vs.length + 1 := by simp
    by_cases hv : v = []
    · rw [if_pos hv] at h
      rcases hrest : encInts vs with _ | rest
      · rw [hrest] at h; simp at h
      · rw [hrest] at h
        simp only [Option.bind_eq_bind, Option.some_bind, Option.pure_def, Option.some.injEq] at h
        rcases hb : pack_i32 0 with _ | b
        · rw [hb] at h; simp at h
        · rw [hb] at h
          simp only [Option.bind_eq_bind, Option.some_bind, Option.some.injEq] at h
          subst h
          have hb4 : b.length = 4 := by
            obtain ⟨_, hb2⟩ := pack_i32_some hb
            rw [hb2]; simp
          rw [hlen, readIntLoop, List.append_assoc, readN_exact _ hb4, hnl]
          simp only [Option.bind_eq_bind, Option.some_bind]
          rw [hih rest hrest]
          simp [hv]
    · rw [if_neg hv] at h
      rcases hn : pyIntParse v with _ | n
      · rw [hn] at h; simp at h
      · rw [hn] at h
        simp only [Option.bind_eq_bind, Option.some_bind] at h
        rcases hb : pack_i32 n with _ | b
        · rw [hb] at h; simp at h
        · rw [hb] at h
          simp only [Option.bind_eq_bind, Option.some_bind] at h
          rcases hrest : encInts vs with _ | rest
          · rw [hrest] at h; simp at h
          · rw [hrest] at h
            simp only [Option.bind_eq_bind, Option.some_bind, Option.pure_def, Option.some.injEq] at h
            subst h
            have hb4 : b.length = 4 := by
              obtain ⟨_, hb2⟩ := pack_i32_some hb
              rw [hb2]; simp
            rw [hlen, readIntLoop, List.append_assoc, readN_exact _ hb4, hnl]
            simp only [Option.bind_eq_bind, Option.some_bind]
            rw [hih rest hrest, decodeI32_pack hb]
            simp [hv, hn]

/-! ### STRING column round trip -/

/-- Sum of the byte lengths of the first `k` values. -/
def sumLen (values : List Bytes) (k : Nat) : Nat :=
  ((values.take k).map List.length).sum

theorem sumLen_cons_succ (v : Bytes) (vs : List Bytes) (k : Nat) :
    sumLen (v :: vs) (k + 1) = v.length + sumLen vs k := by
  simp [sumLen]

theorem drop_append_plus {α : Type} (a b : List α) (n : Nat) :
    (a ++ b).drop (a.length + n) = b.drop n := by
  induction a with
  | nil => simp
  | cons x xs ih =>
    have e : (x :: xs).length + n = (xs.length + n) + 1 := by simp; omega
    rw [e, List.cons_append, List.drop_succ_cons, ih]

theorem strEnc_spec (values : List Bytes) : ∀ cur : Nat,
    strEnc cur values =
      ((List.range values.length).map (fun k => cur + sumLen values (k + 1)),
       values.flatten) := by
  induction values with
  | nil => intro cur; simp [strEnc]
  | cons v vs ih =>
    intro cur
    by_cases hv : v = []
    · rw [strEnc, if_pos hv, ih cur]
      rw [List.length_cons, List.range_succ_eq_map]
      simp only [List.map_cons, List.map_map]
      have e0 : cur + sumLen (v :: vs) 1 = cur := by
        rw [sumLen_cons_succ, hv]
        simp [sumLen]
      have e1 : ((fun k => cur + sumLen (v :: vs) (k + 1)) ∘ Nat.succ) =
          (fun k => cur + sumLen vs (k + 1)) := by
        funext k
        simp only [Function.comp_apply, Nat.succ_eq_add_one, sumLen_cons_succ, hv, List.length_nil]
        omega
      rw [e0, e1]
      simp [hv]
    · rw [strEnc, if_neg hv, ih (cur + v.length)]
      rw [List.length_cons, List.range_succ_eq_map]
      simp only [List.map_cons, List.map_map]
      have e0 : cur + sumLen (v :: vs) 1 = cur + v.length := by
        rw [sumLen_cons_succ]
        simp [sumLen]
      have e1 : ((fun k => cur + sumLen (v :: vs) (k + 1)) ∘ Nat.succ) =
          (fun k => cur + v.length + sumLen vs (k + 1)) := by
        funext k
        simp only [Function.comp_apply, Nat.succ_eq_add_one, sumLen_cons_succ]
        omega
      rw [e0, e1]
      simp

theorem readOffsets_pack (os : List Nat) : ∀ (ob z : Bytes),
    packOffsets os = some ob →
    readOffsets os.length (ob ++ z) = some (os, z) := by
  induction os with
  | nil =>
    intro ob z h
    simp only [packOffsets, Option.some.injEq] at h
    subst h
    simp [readOffsets]
  | cons o os ih =>
    intro ob z h
    rw [packOffsets] at h
    rcases hb : pack_u32 o with _ | b
    · rw [hb] at h; simp at h
    · rw [hb] at h
      simp only [Option.bind_eq_bind, Option.some_bind] at h
      rcases hrest : packOffsets os with _ | rest
      · rw [hrest] at h; simp at h
      · rw [hrest] at h
        simp only [Option.bind_eq_bind, Option.some_bind, Option.pure_def,
          Option.some.injEq] at h
        subst h
        obtain ⟨hlt, hbe⟩ := pack_u32_some hb
        have hb4 : b.length = 4 := by rw [hbe]; simp
        rw [List.length_cons, readOffsets, List.append_assoc, readN_exact _ hb4]
        simp only [Option.bind_eq_bind, Option.some_bind]
        rw [ih rest z hrest]
        simp only [Option.bind_eq_bind, Option.some_bind, Option.pure_def,
          Option.some.injEq]
        rw [hbe, unp_pu32 _ hlt]

theorem flatten_slice (values : List Bytes) : ∀ k, k < values.length →
    ((values.flatten).drop (sumLen values k)).take (sumLen values (k + 1) - sumLen values k) =
      values.getD k [] := by
  induction values with
  | nil => intro k hk; simp at hk
  | cons v vs ih =>
    intro k hk
    cases k with
    | zero =>
      have e1 : sumLen (v :: vs) 0 = 0 := rfl
      have e2 : sumLen (v :: vs) 1 = v.length := by
        rw [sumLen_cons_succ]; simp [sumLen]
      rw [e1, e2, List.flatten_cons, Nat.sub_zero, List.drop_zero, List.take_left]
      rfl
    | succ k =>
      have e1 : sumLen (v :: vs) (k + 1) = v.length + sumLen vs k := sumLen_cons_succ v vs k
      have e2 : sumLen (v :: vs) (k + 1 + 1) = v.length + sumLen vs (k + 1) :=
        sumLen_cons_succ v vs (k + 1)
      rw [e1, e2, List.flatten_cons, drop_append_plus]
      have e3 : v.length + sumLen vs (k + 1) - (v.length + sumLen vs k) =
          sumLen vs (k + 1) - sumLen vs k := by omega
      rw [e3]
      have hk2 : k < vs.length := by simpa using hk
      rw [ih k hk2]
      rfl

theorem readStrCells_spec (bitmap : Bytes) (offs : List Nat) (concat : Bytes) :
    ∀ (n i : Nat),
    (∀ k, k < n → (is_null bitmap (i + k)).isSome = true) →
    (∀ k, k < n → (is_null bitmap (i + k)).getD false = false →
      utf8Valid ((concat.drop (offs.getD (i + k) 0)).take
        (offs.getD (i + k + 1) 0 - offs.getD (i + k) 0)) = true) →
    readStrCells bitmap offs concat i n =
      some ((List.range n).map (fun k =>
        if (is_null bitmap (i + k)).getD false then none
        else some ((concat.drop (offs.getD (i + k) 0)).take
          (offs.getD (i + k + 1) 0 - offs.getD (i + k) 0)))) := by
  intro n
  induction n with
  | zero => intro i _ _; simp [readStrCells]
  | succ n ih =>
    intro i h hval
    have h0 : (is_null bitmap i).isSome = true := by
      have := h 0 (by omega)
      simpa using this
    have hih := ih (i + 1)
      (fun k hk => by
        have := h (k + 1) (by omega)
        have e : i + (k + 1) = i + 1 + k := by omega
        rwa [e] at this)
      (fun k hk hf => by
        have e : i + (k + 1) = i + 1 + k := by omega
        have := hval (k + 1) (by omega) (by rwa [e])
        rwa [e] at this)
    rcases hnl : is_null bitmap i with _ | (_ | _)
    · rw [hnl] at h0; simp at h0
    · have hv0 := hval 0 (by omega) (by simp [hnl])
      simp only [Nat.add_zero] at hv0
      rw [readStrCells, hnl]
      simp only [Option.bind_eq_bind, Option.some_bind]
      rw [if_neg (by simp), if_pos hv0]
      rw [hih]
      simp only [Option.some_bind', Option.pure_def, Option.some.injEq]
      rw [List.range_succ_eq_map]
      simp only [List.map_cons, List.map_map]
      refine congrArg₂ List.cons ?_ ?_
      · simp [hnl]
      · refine List.map_congr_left (fun a ha => ?_)
        simp only [Function.comp_apply, Nat.succ_eq_add_one]
        have e : i + 1 + a = i + (a + 1) := by omega
        rw [e]
    · rw [readStrCells, hnl]
      simp only [Option.bind_eq_bind, Option.some_bind]
      rw [if_pos trivial]
      rw [hih]
      simp only [Option.some_bind', Option.pure_def, Option.some.injEq]
      rw [List.range_succ_eq_map]
      simp only [List.map_cons, List.map_map]
      refine congrArg₂ List.cons ?_ ?_
      · simp [hnl]
      · refine List.map_congr_left (fun a ha => ?_)
        simp only [Function.comp_apply, Nat.succ_eq_add_one]
        have e : i + 1 + a = i + (a + 1) := by omega
        rw [e]

theorem getD_range_map (n : Nat) : ∀ (f : Nat → Nat) (j : Nat), j < n →
    ((List.range n).map f).getD j 0 = f j := by
  induction n with
  | zero => intro f j hj; omega
  | succ n ih =>
    intro f j hj
    rw [List.range_succ_eq_map]
    cases j with
    | zero => simp
    | succ j =>
      simp only [List.map_cons, List.map_map, List.getD_cons_succ]
      have e := ih (f ∘ Nat.succ) j (by omega)
      simpa using e

theorem range_map_value {α : Type} (l : List Bytes) (g : Bytes → α) :
    (List.range l.length).map (fun k => g (l.getD k [])) = l.map g := by
  induction l with
  | nil => simp
  | cons v vs ih =>
    rw [List.length_cons, List.range_succ_eq_map]
    simp only [List.map_cons, List.map_map]
    refine congrArg₂ List.cons (by simp) ?_
    have e : ((fun k => g ((v :: vs).getD k [])) ∘ Nat.succ) =
        (fun k => g (vs.getD k [])) := by
      funext k
      simp
    rw [e, ih]

theorem offsets_full (values : List Bytes) :
    (0 :: (strEnc 0 values).1) =
      (List.range (values.length + 1)).map (fun k => sumLen values k) := by
  have h1 : (strEnc 0 values).1 =
      (List.range values.length).map (fun k => 0 + sumLen values (k + 1)) :=
    congrArg Prod.fst (strEnc_spec values 0)
  rw [h1, List.range_succ_eq_map]
  simp only [List.map_cons, List.map_map]
  refine congrArg₂ List.cons (by simp [sumLen]) ?_
  refine List.map_congr_left (fun k _ => ?_)
  simp

theorem getD_mem (l : List Bytes) (k : Nat) (hk : k < l.length) : l.getD k [] ∈ l := by
  rw [List.getD_eq_getElem l [] hk]
  exact List.getElem_mem hk

theorem readStrColumn_enc (values : List Bytes) (offsB : Bytes)
    (hpk : packOffsets (0 :: (strEnc 0 values).1) = some offsB)
    (hvals : ∀ v ∈ values, utf8Valid v = true)
    (bitmap : Bytes)
    (hbm : ∀ k, k < values.length → is_null bitmap k = some (decide (values.getD k [] = []))) :
    (do
      let p ← readOffsets (values.length + 1) (offsB ++ (strEnc 0 values).2)
      readStrCells bitmap p.1 p.2 0 values.length) =
      some (values.map (fun v => if v = [] then none else some v)) := by
  have hsnd : (strEnc 0 values).2 = values.flatten :=
    congrArg Prod.snd (strEnc_spec values 0)
  have hlen : (0 :: (strEnc 0 values).1).length = values.length + 1 := by
    rw [List.length_cons, congrArg Prod.fst (strEnc_spec values 0)]
    simp
  have hro := readOffsets_pack _ offsB (strEnc 0 values).2 hpk
  rw [hlen] at hro
  rw [hro]
  simp only [Option.bind_eq_bind, Option.some_bind]
  rw [readStrCells_spec bitmap (0 :: (strEnc 0 values).1) (strEnc 0 values).2
    values.length 0 (fun k hk => by rw [Nat.zero_add, hbm k hk]; rfl)
    (fun k hk _ => by
      simp only [Nat.zero_add]
      rw [offsets_full values, hsnd,
        getD_range_map _ _ k (by omega), getD_range_map _ _ (k + 1) (by omega),
        flatten_slice values k hk]
      exact hvals _ (getD_mem values k hk))]
  refine congrArg some ?_
  rw [← range_map_value values (fun v => if v = [] then none else some v)]
  refine List.map_congr_left (fun k hk => ?_)
  have hk2 : k < values.length := List.mem_range.mp hk
  simp only [Nat.zero_add]
  rw [hbm k hk2]
  simp only [Option.getD_some]
  rw [offsets_full values, hsnd,
    getD_range_map _ _ k (by omega), getD_range_map _ _ (k + 1) (by omega),
    flatten_slice values k hk2]
  rcases hdec : decide (values.getD k [] = []) with _ | _
  · simp at hdec
    simp [hdec]
  · simp at hdec
    simp [hdec]

/-! ### Block and header structure lemmas -/

theorem encodeColumn_inv {codec : Codec} {R dtype : Nat} {values : List Bytes} {un : Bytes}
    (h : encodeColumn codec R dtype values = some un) :
    (nullBitmap R values).length < 2 ^ 32 ∧
    ∃ payload,
      un = pu32 (nullBitmap R values).length ++ nullBitmap R values ++ payload ∧
      ((dtype = DT_INT32 ∧ encInts values = some payload) ∨
       (dtype = DT_FLOAT64 ∧ encFloats codec values = some payload) ∨
       (dtype = DT_STRING ∧ values.all utf8Valid = true ∧
         ∃ offsB, packOffsets (0 :: (strEnc 0 values).1) = some offsB ∧
           payload = offsB ++ (strEnc 0 values).2)) := by
  simp only [encodeColumn] at h
  rcases hpk : pack_u32 (nullBitmap R values).length with _ | lenB
  · rw [hpk] at h; simp at h
  · rw [hpk] at h
    simp only [Option.bind_eq_bind, Option.some_bind] at h
    obtain ⟨hlt, hlenB⟩ := pack_u32_some hpk
    refine ⟨hlt, ?_⟩
    by_cases h0 : dtype = DT_INT32
    · rw [if_pos h0] at h
      rcases hp : encInts values with _ | payload
      · rw [hp] at h; simp at h
      · rw [hp] at h
        simp only [Option.bind_eq_bind, Option.some_bind, Option.pure_def,
          Option.some.injEq] at h
        exact ⟨payload, by rw [← h, hlenB], Or.inl ⟨h0, rfl⟩⟩
    · rw [if_neg h0] at h
      by_cases h1 : dtype = DT_FLOAT64
      · rw [if_pos h1] at h
        rcases hp : encFloats codec values with _ | payload
        · rw [hp] at h; simp at h
        · rw [hp] at h
          simp only [Option.bind_eq_bind, Option.some_bind, Option.pure_def,
            Option.some.injEq] at h
          exact ⟨payload, by rw [← h, hlenB], Or.inr (Or.inl ⟨h1, rfl⟩)⟩
      · rw [if_neg h1] at h
        by_cases h2 : dtype = DT_STRING
        · rw [if_pos h2] at h
          rcases hg : values.all utf8Valid with _ | _
          · rw [if_neg (by rw [hg]; exact Bool.false_ne_true)] at h
            simp at h
          · rw [if_pos hg] at h
            rcases hp : packOffsets (0 :: (strEnc 0 values).1) with _ | offsB
            · rw [hp] at h; simp at h
            · rw [hp] at h
              simp only [Option.bind_eq_bind, Option.some_bind, Option.pure_def,
                Option.some.injEq] at h
              exact ⟨offsB ++ (strEnc 0 values).2, by rw [← h, hlenB],
                Or.inr (Or.inr ⟨h2, rfl, offsB, rfl, rfl⟩)⟩
        · rw [if_neg h2] at h
          simp at h

instance : Inhabited Block := ⟨⟨[], 0, [], 0⟩⟩

theorem headerEntry_inv {m : ColumnMeta} {e : Bytes} (h : headerEntry m = some e) :
    m.name.length < 2 ^ 16 ∧ m.dtype < 2 ^ 8 ∧ m.offset < 2 ^ 64 ∧
    m.compressed_size < 2 ^ 64 ∧ m.uncompressed_size < 2 ^ 64 ∧
    e = pu16 m.name.length ++ m.name ++ pu8 m.dtype ++ pu64 m.offset ++
      pu64 m.compressed_size ++ pu64 m.uncompressed_size ∧
    e.length = 27 + m.name.length := by
  simp only [headerEntry] at h
  rcases h1 : pack_u16 m.name.length with _ | ln
  · rw [h1] at h; simp at h
  · rw [h1] at h
    simp only [Option.bind_eq_bind, Option.some_bind] at h
    rcases h2 : pack_u8 m.dtype with _ | d
    · rw [h2] at h; simp at h
    · rw [h2] at h
      simp only [Option.bind_eq_bind, Option.some_bind] at h
      rcases h3 : pack_u64 m.offset with _ | ob
      · rw [h3] at h; simp at h
      · rw [h3] at h
        simp only [Option.bind_eq_bind, Option.some_bind] at h
        rcases h4 : pack_u64 m.compressed_size with _ | cb
        · rw [h4] at h; simp at h
        · rw [h4] at h
          simp only [Option.bind_eq_bind, Option.some_bind] at h
          rcases h5 : pack_u64 m.uncompressed_size with _ | ub
          · rw [h5] at h; simp at h
          · rw [h5] at h
            simp only [Option.bind_eq_bind, Option.some_bind, Option.pure_def,
              Option.some.injEq] at h
            obtain ⟨b1, e1⟩ := pack_u16_some h1
            obtain ⟨b2, e2⟩ := pack_u8_some h2
            obtain ⟨b3, e3⟩ := pack_u64_some h3
            obtain ⟨b4, e4⟩ := pack_u64_some h4
            obtain ⟨b5, e5⟩ := pack_u64_some h5
            subst e1 e2 e3 e4 e5
            refine ⟨b1, b2, b3, b4, b5, by rw [← h], ?_⟩
            rw [← h]
            simp
            omega

theorem parseEntry_entry {m : ColumnMeta} {e : Bytes} (h : headerEntry m = some e)
    (rest : Bytes) : parseEntry (e ++ rest) = some (m, rest) := by
  obtain ⟨nm, dt, off, cs, us⟩ := m
  obtain ⟨h16, h8, h64o, h64c, h64u, he, _⟩ := headerEntry_inv h
  simp only at h16 h8 h64o h64c h64u he
  subst he
  rw [parseEntry]
  simp only [List.append_assoc]
  rw [readN_exact _ (length_pu16 _)]
  simp only [Option.bind_eq_bind, Option.some_bind]
  rw [unp_pu16 _ h16, List.take_left, List.drop_left,
    readN_exact _ (length_pu8 _)]
  simp only [Option.bind_eq_bind, Option.some_bind]
  rw [readN_exact _ (length_pu64 _)]
  simp only [Option.bind_eq_bind, Option.some_bind]
  rw [readN_exact _ (length_pu64 _)]
  simp only [Option.bind_eq_bind, Option.some_bind]
  rw [readN_exact _ (length_pu64 _)]
  simp only [Option.bind_eq_bind, Option.some_bind, Option.pure_def,
    Option.some.injEq]
  rw [unp_pu8 _ h8, unp_pu64 _ h64o, unp_pu64 _ h64c, unp_pu64 _ h64u]

theorem parseEntries_build (ms : List ColumnMeta) : ∀ (hb : Bytes),
    buildHeader ms = some hb → ∀ rest, parseEntries ms.length (hb ++ rest) = some ms := by
  induction ms with
  | nil =>
    intro hb h rest
    simp only [buildHeader, Option.some.injEq] at h
    subst h
    simp [parseEntries]
  | cons m ms ih =>
    intro hb h rest
    rw [buildHeader] at h
    rcases he : headerEntry m with _ | e
    · rw [he] at h; simp at h
    · rw [he] at h
      simp only [Option.bind_eq_bind, Option.some_bind] at h
      rcases hr : buildHeader ms with _ | r
      · rw [hr] at h; simp at h
      · rw [hr] at h
        simp only [Option.bind_eq_bind, Option.some_bind, Option.pure_def,
          Option.some.injEq] at h
        subst h
        rw [List.length_cons, parseEntries, List.append_assoc, parseEntry_entry he]
        simp only [Option.bind_eq_bind, Option.some_bind]
        rw [ih r hr rest]
        rfl

theorem buildHeader_length (ms : List ColumnMeta) : ∀ hb : Bytes,
    buildHeader ms = some hb →
    hb.length = (ms.map (fun m => 2 + m.name.length + 1 + 8 + 8 + 8)).sum := by
  induction ms with
  | nil =>
    intro hb h
    simp only [buildHeader, Option.some.injEq] at h
    subst h
    simp
  | cons m ms ih =>
    intro hb h
    rw [buildHeader] at h
    rcases he : headerEntry m with _ | e
    · rw [he] at h; simp at h
    · rw [he] at h
      simp only [Option.bind_eq_bind, Option.some_bind] at h
      rcases hr : buildHeader ms with _ | r
      · rw [hr] at h; simp at h
      · rw [hr] at h
        simp only [Option.bind_eq_bind, Option.some_bind, Option.pure_def,
          Option.some.injEq] at h
        subst h
        obtain ⟨_, _, _, _, _, _, hlen⟩ := headerEntry_inv he
        rw [List.length_append, hlen, ih r hr]
        simp
        omega

/-- Default pair for indexing into the zipped schema/columns list. -/
def dfltPair : (Bytes × Nat) × List Bytes := (([], 0), [])

theorem encodeBlocks_inv (codec : Codec) (R : Nat)
    (pairs : List ((Bytes × Nat) × List Bytes)) : ∀ blocks : List Block,
    encodeBlocks codec R pairs = some blocks →
    blocks.length = pairs.length ∧
    ∀ j, j < pairs.length →
      ∃ un, encodeColumn codec R (pairs.getD j dfltPair).1.2 (pairs.getD j dfltPair).2
          = some un ∧
        blocks.getD j default =
          ⟨(pairs.getD j dfltPair).1.1, (pairs.getD j dfltPair).1.2,
            codec.compress un, un.length⟩ := by
  induction pairs with
  | nil =>
    intro blocks h
    simp only [encodeBlocks, Option.some.injEq] at h
    subst h
    exact ⟨rfl, fun j hj => by simp at hj⟩
  | cons p rest ih =>
    intro blocks h
    obtain ⟨⟨nm, dt⟩, vals⟩ := p
    rw [encodeBlocks] at h
    rcases hu : encodeColumn codec R dt vals with _ | un
    · rw [hu] at h; simp at h
    · rw [hu] at h
      simp only [Option.bind_eq_bind, Option.some_bind] at h
      rcases ht : encodeBlocks codec R rest with _ | tl
      · rw [ht] at h; simp at h
      · rw [ht] at h
        simp only [Option.bind_eq_bind, Option.some_bind, Option.pure_def,
          Option.some.injEq] at h
        subst h
        obtain ⟨hlen, hget⟩ := ih tl ht
        refine ⟨by simp [hlen], fun j hj => ?_⟩
        cases j with
        | zero => exact ⟨un, hu, rfl⟩
        | succ j =>
          have hj2 : j < rest.length := by simpa using hj
          obtain ⟨un2, hu2, hb2⟩ := hget j hj2
          exact ⟨un2, hu2, by simpa using hb2⟩

theorem assign_find_slice (nm : Bytes) : ∀ (blocks : List Block) (pre : Bytes) (j : Nat),
    j < blocks.length →
    (blocks.getD j default).name = nm →
    (∀ k, k < j → (blocks.getD k default).name ≠ nm) →
    ∃ m, (assignMetas pre.length blocks).find? (fun m => m.name == nm) = some m ∧
      m.name = nm ∧
      m.dtype = (blocks.getD j default).dtype ∧
      m.compressed_size = (blocks.getD j default).comp.length ∧
      m.uncompressed_size = (blocks.getD j default).uncompressed_size ∧
      ((pre ++ (blocks.map Block.comp).flatten).drop m.offset).take m.compressed_size =
        (blocks.getD j default).comp := by
  intro blocks
  induction blocks with
  | nil => intro pre j hj _ _; simp at hj
  | cons b bs ih =>
    intro pre j hj hname hbefore
    cases j with
    | zero =>
      simp only [List.getD_cons_zero] at hname
      refine ⟨⟨b.name, b.dtype, pre.length, b.comp.length, b.uncompressed_size⟩, ?_,
        hname, rfl, rfl, rfl, ?_⟩
      · rw [assignMetas]
        apply List.find?_cons_of_pos
        simp [hname]
      · simp only [List.map_cons, List.flatten_cons]
        rw [List.drop_left, List.take_left]
        rfl
    | succ j =>
      have hj2 : j < bs.length := by simpa using hj
      have hname2 : (bs.getD j default).name = nm := by simpa using hname
      have hbefore2 : ∀ k, k < j → (bs.getD k default).name ≠ nm := fun k hk => by
        have := hbefore (k + 1) (by omega)
        simpa using this
      have hne : (b.name == nm) = false := by
        have := hbefore 0 (by omega)
        simp only [List.getD_cons_zero] at this
        simp [this]
      obtain ⟨m, hfind, hn, hd, hc, hu2, hslice⟩ := ih (pre ++ b.comp) j hj2 hname2 hbefore2
      refine ⟨m, ?_, hn, by simpa using hd, by simpa using hc, by simpa using hu2, ?_⟩
      · rw [assignMetas]
        rw [List.find?_cons_of_neg _ (by simp [hne])]
        have e : pre.length + b.comp.length = (pre ++ b.comp).length := by simp
        rw [e]
        exact hfind
      · simp only [List.map_cons, List.flatten_cons] at hslice ⊢
        rw [List.append_assoc] at hslice
        simpa using hslice

theorem write_inv {codec : Codec} {schema : List (Bytes × Nat)}
    {rows : List (List Bytes)} {res : WriteResult}
    (h : write codec schema rows = some res) :
    ∃ (blocks : List Block) (header1 header : Bytes),
      encodeBlocks codec rows.length (schema.zip (transpose schema.length rows))
        = some blocks ∧
      buildHeader ((assignMetas 0 blocks).map (fun m => { m with offset := 0 }))
        = some header1 ∧
      buildHeader (assignMetas (22 + header1.length) blocks) = some header ∧
      header.length < 2 ^ 32 ∧ rows.length < 2 ^ 64 ∧
      (assignMetas (22 + header1.length) blocks).length < 2 ^ 16 ∧
      res.metas = assignMetas (22 + header1.length) blocks ∧
      res.header_size = header.length ∧
      res.file = MAGIC ++ pu8 VERSION ++ pu32 header.length ++ pu64 rows.length ++
        pu16 (assignMetas (22 + header1.length) blocks).length ++ header ++
        (blocks.map Block.comp).flatten := by
  simp only [write] at h
  rcases henc : encodeBlocks codec rows.length (schema.zip (transpose schema.length rows))
    with _ | blocks
  · rw [henc] at h; simp at h
  · rw [henc] at h
    simp only [Option.bind_eq_bind, Option.some_bind] at h
    rcases hb1 : buildHeader ((assignMetas 0 blocks).map (fun m => { m with offset := 0 }))
      with _ | header1
    · rw [hb1] at h; simp at h
    · rw [hb1] at h
      simp only [Option.bind_eq_bind, Option.some_bind] at h
      rcases hb : buildHeader (assignMetas (22 + header1.length) blocks) with _ | header
      · rw [hb] at h; simp at h
      · rw [hb] at h
        simp only [Option.bind_eq_bind, Option.some_bind] at h
        rcases hv : pack_u8 VERSION with _ | vb
        · rw [hv] at h; simp at h
        · rw [hv] at h
          simp only [Option.bind_eq_bind, Option.some_bind] at h
          rcases hh : pack_u32 header.length with _ | hbyt
          · rw [hh] at h; simp at h
          · rw [hh] at h
            simp only [Option.bind_eq_bind, Option.some_bind] at h
            rcases hr : pack_u64 rows.length with _ | rb
            · rw [hr] at h; simp at h
            · rw [hr] at h
              simp only [Option.bind_eq_bind, Option.some_bind] at h
              rcases hc : pack_u16 (assignMetas (22 + header1.length) blocks).length
                with _ | cb
              · rw [hc] at h; simp at h
              · rw [hc] at h
                simp only [Option.bind_eq_bind, Option.some_bind, Option.pure_def,
                  Option.some.injEq] at h
                obtain ⟨bv, ev⟩ := pack_u8_some hv
                obtain ⟨bh, eh⟩ := pack_u32_some hh
                obtain ⟨br, er⟩ := pack_u64_some hr
                obtain ⟨bc, ec⟩ := pack_u16_some hc
                subst ev eh er ec
                refine ⟨blocks, header1, header, rfl, hb1, hb, bh, br, bc, ?_, ?_, ?_⟩
                · rw [← h]
                · rw [← h]
                · rw [← h]

theorem read_header_write {codec : Codec} {schema : List (Bytes × Nat)}
    {rows : List (List Bytes)} {res : WriteResult}
    (h : write codec schema rows = some res) :
    read_header res.file = some ⟨rows.length, res.metas.length, res.metas⟩ := by
  obtain ⟨blocks, header1, header, henc, hb1, hb, hlt32, hlt64, hlt16, hmetas,
    hhsz, hfile⟩ := write_inv h
  have h7 : MAGIC.length = 7 := rfl
  rw [hfile, read_header]
  simp only [List.append_assoc]
  rw [if_neg (by rw [List.take_left' h7]; simp)]
  rw [List.drop_left' h7, readN_exact _ (length_pu8 _)]
  simp only [Option.bind_eq_bind, Option.some_bind]
  rw [readN_exact _ (length_pu32 _)]
  simp only [Option.bind_eq_bind, Option.some_bind]
  rw [readN_exact _ (length_pu64 _)]
  simp only [Option.bind_eq_bind, Option.some_bind]
  rw [readN_exact _ (length_pu16 _)]
  simp only [Option.bind_eq_bind, Option.some_bind]
  rw [unp_pu32 _ hlt32, unp_pu64 _ hlt64, unp_pu16 _ hlt16, List.take_left]
  have hpe := parseEntries_build _ header hb []
  rw [List.append_nil] at hpe
  rw [hpe]
  simp only [Option.bind_eq_bind, Option.some_bind, Option.pure_def,
    Option.some.injEq]
  rw [hmetas]

theorem zip_getD {α β : Type} : ∀ (a : List α) (b : List β) (j : Nat) (da : α) (db : β),
    j < a.length → j < b.length →
    (a.zip b).getD j (da, db) = (a.getD j da, b.getD j db) := by
  intro a
  induction a with
  | nil => intro b j da db h1 _; simp at h1
  | cons x xs ih =>
    intro b j da db h1 h2
    cases b with
    | nil => simp at h2
    | cons y ys =>
      cases j with
      | zero => simp [List.zip_cons_cons]
      | succ j =>
        rw [List.zip_cons_cons]
        simp only [List.getD_cons_succ]
        exact ih ys j da db (by simpa using h1) (by simpa using h2)

theorem getD_range_map_gen {α : Type} (n : Nat) : ∀ (f : Nat → α) (d : α) (j : Nat),
    j < n → ((List.range n).map f).getD j d = f j := by
  induction n with
  | zero => intro f d j hj; omega
  | succ n ih =>
    intro f d j hj
    rw [List.range_succ_eq_map]
    cases j with
    | zero => simp
    | succ j =>
      simp only [List.map_cons, List.map_map, List.getD_cons_succ]
      have e := ih (f ∘ Nat.succ) d j (by omega)
      simpa using e

theorem transpose_getD (numCols : Nat) (rows : List (List Bytes)) (j : Nat)
    (hj : j < numCols) :
    (transpose numCols rows).getD j [] = rows.map (fun r => r.getD j []) := by
  unfold transpose
  exact getD_range_map_gen numCols _ _ j hj

theorem transpose_length (numCols : Nat) (rows : List (List Bytes)) :
    (transpose numCols rows).length = numCols := by
  simp [transpose]

theorem assignMetas_entrysum : ∀ (blocks : List Block) (start : Nat),
    ((assignMetas start blocks).map (fun m => 2 + m.name.length + 1 + 8 + 8 + 8)).sum =
      (blocks.map (fun b => 2 + b.name.length + 1 + 8 + 8 + 8)).sum := by
  intro blocks
  induction blocks with
  | nil => intro start; rfl
  | cons b bs ih =>
    intro start
    rw [assignMetas]
    simp only [List.map_cons, List.sum_cons]
    rw [ih]

/-- Master round-trip lemma: writing a table and selectively reading column
`j` (the first column of its name, of INT32 or STRING dtype) returns the
column's values, nulls for empty inputs, decoded per dtype. -/
theorem read_column_write (codec : Codec)
    (hcd : ∀ b, codec.decompress (codec.compress b) = some b)
    (schema : List (Bytes × Nat)) (rows : List (List Bytes)) (res : WriteResult)
    (hw : write codec schema rows = some res)
    (j : Nat) (hj : j < schema.length) (nm : Bytes)
    (hnm : (schema.getD j ([], 0)).1 = nm)
    (hbefore : ∀ k, k < j → (schema.getD k ([], 0)).1 ≠ nm)
    (hdt : (schema.getD j ([], 0)).2 = DT_INT32 ∨ (schema.getD j ([], 0)).2 = DT_STRING) :
    openAndRead codec res.file nm =
      some ((rows.map (fun r => r.getD j [])).map
        (fun v => if (schema.getD j ([], 0)).2 = DT_INT32
          then (if v = [] then none else (pyIntParse v).map intToDecBytes)
          else (if v = [] then none else some v))) := by
  obtain ⟨blocks, header1, header, henc, hb1, hb, hlt32, hlt64, hlt16, hmetas,
    hhsz, hfile⟩ := write_inv hw
  have hplen : (schema.zip (transpose schema.length rows)).length = schema.length := by
    rw [List.length_zip, transpose_length]
    simp
  obtain ⟨hblen, hbget⟩ := encodeBlocks_inv codec rows.length
    (schema.zip (transpose schema.length rows)) blocks henc
  have hpair : ∀ k, k < schema.length →
      (schema.zip (transpose schema.length rows)).getD k dfltPair =
        (schema.getD k ([], 0), rows.map (fun r => r.getD k [])) := by
    intro k hk
    have hz := zip_getD schema (transpose schema.length rows) k ([], 0) [] hk
      (by rw [transpose_length]; exact hk)
    simp only [dfltPair]
    rw [hz, transpose_getD _ _ _ hk]
  obtain ⟨un, hun, hblockj⟩ := hbget j (by rw [hplen]; exact hj)
  rw [hpair j hj] at hun hblockj
  simp only at hun hblockj
  have hnames_k : ∀ k, k < j → (blocks.getD k default).name ≠ nm := by
    intro k hk
    obtain ⟨unk, _, hbk⟩ := hbget k (by rw [hplen]; omega)
    rw [hpair k (by omega)] at hbk
    rw [hbk]
    exact hbefore k hk
  have hlen_eq : header1.length = header.length := by
    rw [buildHeader_length _ header1 hb1, buildHeader_length _ header hb,
      List.map_map]
    have e : ((fun (m : ColumnMeta) => 2 + m.name.length + 1 + 8 + 8 + 8) ∘
        (fun m => { m with offset := 0 })) =
        (fun (m : ColumnMeta) => 2 + m.name.length + 1 + 8 + 8 + 8) := rfl
    rw [e, assignMetas_entrysum blocks 0,
      assignMetas_entrysum blocks (22 + header1.length)]
  have hprelen : (MAGIC ++ pu8 VERSION ++ pu32 header.length ++ pu64 rows.length ++
      pu16 (assignMetas (22 + header1.length) blocks).length ++ header).length =
      22 + header1.length := by
    simp only [List.length_append, length_pu8, length_pu32, length_pu64, length_pu16]
    have e7 : MAGIC.length = 7 := rfl
    rw [e7, hlen_eq]
  obtain ⟨m, hfind, hmn, hmdt, hmcs, hmus, hslice⟩ :=
    assign_find_slice nm blocks
      (MAGIC ++ pu8 VERSION ++ pu32 header.length ++ pu64 rows.length ++
        pu16 (assignMetas (22 + header1.length) blocks).length ++ header)
      j (by rw [hblen, hplen]; exact hj)
      (by rw [hblockj]; exact hnm) hnames_k
  rw [hprelen] at hfind
  rw [openAndRead, read_header_write hw]
  simp only [Option.bind_eq_bind, Option.some_bind]
  rw [read_column]
  simp only [hmetas, hfind, Option.bind_eq_bind, Option.some_bind]
  rw [← hfile] at hslice
  rw [hslice, hblockj]
  simp only [hcd un]
  obtain ⟨hblt, payload, hunstruct, hpayload⟩ := encodeColumn_inv hun
  rw [hunstruct]
  simp only [Option.bind_eq_bind, Option.some_bind]
  rw [List.append_assoc, readN_exact _ (length_pu32 _)]
  simp only [Option.bind_eq_bind, Option.some_bind]
  rw [unp_pu32 _ hblt, List.take_left, List.drop_left]
  have hvlen : (rows.map (fun r => r.getD j [])).length = rows.length := by simp
  have hbm : ∀ k, k < (rows.map (fun r => r.getD j [])).length →
      is_null (nullBitmap rows.length (rows.map (fun r => r.getD j []))) k =
        some (decide ((rows.map (fun r => r.getD j [])).getD k [] = [])) := by
    intro k hk
    rw [hvlen] at hk
    rw [is_null_nullBitmap rows.length _ k hk,
      isNullIdx_lt (by rw [hvlen]; exact hk)]
  rcases hdt with hdtI | hdtS
  · have hmdtI : m.dtype = DT_INT32 := by
      rw [hmdt, hblockj]
      exact hdtI
    rw [if_pos hmdtI]
    have hencInts : encInts (rows.map (fun r => r.getD j [])) = some payload := by
      rcases hpayload with ⟨_, hp⟩ | ⟨hd, _⟩ | ⟨hd, _⟩
      · exact hp
      · rw [hdtI] at hd; simp [DT_INT32, DT_FLOAT64] at hd
      · rw [hdtI] at hd; simp [DT_INT32, DT_STRING] at hd
    have e : (fun v => if (schema.getD j ([], 0)).2 = DT_INT32
        then (if v = [] then none else (pyIntParse v).map intToDecBytes)
        else (if v = [] then none else some v)) =
        (fun v : Bytes => if v = [] then none else (pyIntParse v).map intToDecBytes) := by
      funext v
      rw [if_pos hdtI]
    rw [e]
    have hloop := readIntLoop_enc (rows.map (fun r => r.getD j []))
      payload [] (nullBitmap rows.length (rows.map (fun r => r.getD j []))) 0
      hencInts (fun k hk => by rw [Nat.zero_add]; exact hbm k hk)
    rw [List.append_nil] at hloop
    rw [hvlen] at hloop
    exact hloop
  · have hmdtS : m.dtype = DT_STRING := by
      rw [hmdt, hblockj]
      exact hdtS
    rw [if_neg (by rw [hmdtS]; simp [DT_STRING, DT_INT32]),
      if_neg (by rw [hmdtS]; simp [DT_STRING, DT_FLOAT64]),
      if_pos hmdtS]
    obtain ⟨hall, offsB, hpk, hpayeq⟩ :
        (rows.map (fun r => r.getD j [])).all utf8Valid = true ∧ ∃ offsB,
        packOffsets (0 :: (strEnc 0 (rows.map (fun r => r.getD j []))).1) = some offsB ∧
        payload = offsB ++ (strEnc 0 (rows.map (fun r => r.getD j []))).2 := by
      rcases hpayload with ⟨hd, _⟩ | ⟨hd, _⟩ | ⟨_, hx⟩
      · rw [hdtS] at hd; simp [DT_INT32, DT_STRING] at hd
      · rw [hdtS] at hd; simp [DT_FLOAT64, DT_STRING] at hd
      · exact hx
    have e : (fun v => if (schema.getD j ([], 0)).2 = DT_INT32
        then (if v = [] then none else (pyIntParse v).map intToDecBytes)
        else (if v = [] then none else some v)) =
        (fun v : Bytes => if v = [] then none else some v) := by
      funext v
      rw [if_neg (by rw [hdtS]; simp [DT_STRING, DT_INT32])]
    rw [e, hpayeq]
    have hstr := readStrColumn_enc (rows.map (fun r => r.getD j [])) offsB hpk
      (fun v hv => List.all_eq_true.mp hall v hv)
      (nullBitmap rows.length (rows.map (fun r => r.getD j []))) hbm
    rw [hvlen] at hstr
    exact hstr

/-! ### Claim theorems: round trips -/

theorem map_single_getD (values : List Bytes) :
    (values.map (fun v => [v])).map (fun r => r.getD 0 []) = values := by
  rw [List.map_map]
  have h2 : List.map ((fun (r : List Bytes) => r.getD 0 []) ∘ fun v => [v]) values =
      List.map id values := List.map_congr_left (fun v _ => rfl)
  rw [h2, List.map_id]

theorem natDigitsRevAux_pos (fuel m : Nat) :
    natDigitsRevAux (fuel + 1) (m + 1) = ((m + 1) % 10 + 48) :: natDigitsRevAux fuel ((m + 1) / 10) := rfl

theorem intToDecBytes_ne_nil (n : Int) : intToDecBytes n ≠ [] := by
  unfold intToDecBytes
  split
  · simp
  · split
    · simp
    · rcases hnt : n.toNat with _ | m
      · omega
      · unfold natDigitsRev
        rw [natDigitsRevAux_pos]
        simp

/-- C1: for an INT32 column whose non-empty values are canonical base-10
integers in the signed 32-bit range, the write/read round trip returns
exactly one cell per input row, null for empty inputs, and the decimal
rendering of the parsed integer (= the input text) for the rest. -/
theorem claim_c1_int_roundtrip (codec : Codec)
    (hcd : ∀ b, codec.decompress (codec.compress b) = some b)
    (nm : Bytes) (values : List Bytes)
    (hv : ∀ v ∈ values, v = [] ∨ ∃ n : Int, pyIntParse v = some n ∧
      -(2 ^ 31) ≤ n ∧ n ≤ 2 ^ 31 - 1 ∧ v = intToDecBytes n)
    (hs : (write codec [(nm, DT_INT32)] (values.map (fun v => [v]))).isSome = true) :
    writeRead codec [(nm, DT_INT32)] (values.map (fun v => [v])) nm =
      some (values.map (fun v => if v = [] then none else some v)) ∧
    (values.map (fun v => if v = [] then none else some v)).length = values.length := by
  refine ⟨?_, by simp⟩
  obtain ⟨res, hw⟩ := Option.isSome_iff_exists.mp hs
  rw [writeRead, hw]
  simp only [Option.bind_eq_bind, Option.some_bind]
  have hm := read_column_write codec hcd [(nm, DT_INT32)] (values.map (fun v => [v]))
    res hw 0 (by simp) nm rfl (fun k hk => by omega) (Or.inl rfl)
  rw [map_single_getD] at hm
  rw [hm]
  refine congrArg some (List.map_congr_left (fun v hvin => ?_))
  have hc : ([(nm, DT_INT32)].getD 0 ([], 0)).2 = DT_INT32 := rfl
  rw [if_pos hc]
  rcases hv v hvin with hnull | ⟨n, hn, _, _, hcanon⟩
  · simp [hnull]
  · have hvne : v ≠ [] := by rw [hcanon]; exact intToDecBytes_ne_nil n
    rw [if_neg hvne, if_neg hvne, hn]
    simp [← hcanon]

/-- Witness for C1 at the spec scenario S1: an age column with values
30, empty, 42, 7. -/
theorem claim_c1_witness :
    (∀ v ∈ [[51, 48], [], [52, 50], [55]], v = ([] : Bytes) ∨ ∃ n : Int,
      pyIntParse v = some n ∧ -(2 ^ 31) ≤ n ∧ n ≤ 2 ^ 31 - 1 ∧ v = intToDecBytes n) ∧
    (write idCodec [([97, 103, 101], DT_INT32)]
      ([[51, 48], [], [52, 50], [55]].map (fun v => [v]))).isSome = true ∧
    writeRead idCodec [([97, 103, 101], DT_INT32)]
      ([[51, 48], [], [52, 50], [55]].map (fun v => [v])) [97, 103, 101] =
      some [some [51, 48], none, some [52, 50], some [55]] := by
  have h1 : ∀ v ∈ [[51, 48], [], [52, 50], [55]], v = ([] : Bytes) ∨ ∃ n : Int,
      pyIntParse v = some n ∧ -(2 ^ 31) ≤ n ∧ n ≤ 2 ^ 31 - 1 ∧ v = intToDecBytes n := by
    intro v hv
    simp only [List.mem_cons, List.not_mem_nil, or_false] at hv
    rcases hv with rfl | rfl | rfl | rfl
    · exact Or.inr ⟨30, by decide, by decide, by decide, by decide⟩
    · exact Or.inl rfl
    · exact Or.inr ⟨42, by decide, by decide, by decide, by decide⟩
    · exact Or.inr ⟨7, by decide, by decide, by decide, by decide⟩
  refine ⟨h1, by decide, ?_⟩
  exact ((claim_c1_int_roundtrip idCodec (fun b => rfl) [97, 103, 101]
    [[51, 48], [], [52, 50], [55]] h1 (by decide)).1).trans (by decide)

/-- C10: for an INT32 column, every non-empty input accepted by Python's
`int()` with value in the signed 32-bit range reads back as the canonical
decimal rendering of the parsed value: non-canonical text (signs,
surrounding whitespace, underscores) is silently normalized. -/
theorem claim_c10_int_normalization (codec : Codec)
    (hcd : ∀ b, codec.decompress (codec.compress b) = some b)
    (nm : Bytes) (values : List Bytes)
    (hv : ∀ v ∈ values, v ≠ [] → ∃ n : Int, pyIntParse v = some n ∧
      -(2 ^ 31) ≤ n ∧ n ≤ 2 ^ 31 - 1)
    (hs : (write codec [(nm, DT_INT32)] (values.map (fun v => [v]))).isSome = true) :
    writeRead codec [(nm, DT_INT32)] (values.map (fun v => [v])) nm =
      some (values.map (fun v =>
        if v = [] then none else (pyIntParse v).map intToDecBytes)) := by
  obtain ⟨res, hw⟩ := Option.isSome_iff_exists.mp hs
  rw [writeRead, hw]
  simp only [Option.bind_eq_bind, Option.some_bind]
  have hm := read_column_write codec hcd [(nm, DT_INT32)] (values.map (fun v => [v]))
    res hw 0 (by simp) nm rfl (fun k hk => by omega) (Or.inl rfl)
  rw [map_single_getD] at hm
  rw [hm]
  refine congrArg some (List.map_congr_left (fun v _ => ?_))
  have hc : ([(nm, DT_INT32)].getD 0 ([], 0)).2 = DT_INT32 := rfl
  rw [if_pos hc]

/-- Witness for C10 at non-canonical inputs plus five, space seven space,
and one underscore zero zero zero. -/
theorem claim_c10_witness :
    (∀ v ∈ [[43, 53], [32, 55, 32], [49, 95, 48, 48, 48]], v ≠ ([] : Bytes) →
      ∃ n : Int, pyIntParse v = some n ∧ -(2 ^ 31) ≤ n ∧ n ≤ 2 ^ 31 - 1) ∧
    (write idCodec [([120], DT_INT32)]
      ([[43, 53], [32, 55, 32], [49, 95, 48, 48, 48]].map (fun v => [v]))).isSome = true ∧
    writeRead idCodec [([120], DT_INT32)]
      ([[43, 53], [32, 55, 32], [49, 95, 48, 48, 48]].map (fun v => [v])) [120] =
      some [some [53], some [55], some [49, 48, 48, 48]] := by
  have h1 : ∀ v ∈ [[43, 53], [32, 55, 32], [49, 95, 48, 48, 48]], v ≠ ([] : Bytes) →
      ∃ n : Int, pyIntParse v = some n ∧ -(2 ^ 31) ≤ n ∧ n ≤ 2 ^ 31 - 1 := by
    intro v hv _
    simp only [List.mem_cons, List.not_mem_nil, or_false] at hv
    rcases hv with rfl | rfl | rfl
    · exact ⟨5, by decide, by decide, by decide⟩
    · exact ⟨7, by decide, by decide, by decide⟩
    · exact ⟨1000, by decide, by decide, by decide⟩
  refine ⟨h1, by decide, ?_⟩
  exact (claim_c10_int_normalization idCodec (fun b => rfl) [120]
    [[43, 53], [32, 55, 32], [49, 95, 48, 48, 48]] h1 (by decide)).trans (by decide)

/-- C2: for a STRING column the write/read round trip returns the input
values elementwise with empty inputs surfaced as nulls; and the encoder's
uncompressed buffer for alice, empty, bob, carol is the bitmap block
followed by the offsets 0, 5, 5, 8, 13 and the 13-byte payload
alicebobcarol. -/
theorem claim_c2_string_roundtrip (codec : Codec)
    (hcd : ∀ b, codec.decompress (codec.compress b) = some b)
    (nm : Bytes) (values : List Bytes)
    (hs : (write codec [(nm, DT_STRING)] (values.map (fun v => [v]))).isSome = true) :
    writeRead codec [(nm, DT_STRING)] (values.map (fun v => [v])) nm =
      some (values.map (fun v => if v = [] then none else some v)) ∧
    encodeColumn idCodec 4 DT_STRING
      [[97, 108, 105, 99, 101], [], [98, 111, 98], [99, 97, 114, 111, 108]] =
      some ([1, 0, 0, 0] ++ [2] ++
        ([0, 0, 0, 0] ++ [5, 0, 0, 0] ++ [5, 0, 0, 0] ++ [8, 0, 0, 0] ++ [13, 0, 0, 0]) ++
        [97, 108, 105, 99, 101, 98, 111, 98, 99, 97, 114, 111, 108]) := by
  refine ⟨?_, by decide⟩
  obtain ⟨res, hw⟩ := Option.isSome_iff_exists.mp hs
  rw [writeRead, hw]
  simp only [Option.bind_eq_bind, Option.some_bind]
  have hm := read_column_write codec hcd [(nm, DT_STRING)] (values.map (fun v => [v]))
    res hw 0 (by simp) nm rfl (fun k hk => by omega) (Or.inr rfl)
  rw [map_single_getD] at hm
  rw [hm]
  refine congrArg some (List.map_congr_left (fun v _ => ?_))
  have hc : ([(nm, DT_STRING)].getD 0 ([], 0)).2 = DT_STRING := rfl
  simp only [hc]
  rw [if_neg (by decide)]

/-- Witness for C2 at the spec scenario S2: a name column with values
alice, empty, bob, carol. -/
theorem claim_c2_witness :
    (write idCodec [([110, 97, 109, 101], DT_STRING)]
      ([[97, 108, 105, 99, 101], [], [98, 111, 98], [99, 97, 114, 111, 108]].map
        (fun v => [v]))).isSome = true ∧
    writeRead idCodec [([110, 97, 109, 101], DT_STRING)]
      ([[97, 108, 105, 99, 101], [], [98, 111, 98], [99, 97, 114, 111, 108]].map
        (fun v => [v])) [110, 97, 109, 101] =
      some [some [97, 108, 105, 99, 101], none, some [98, 111, 98],
        some [99, 97, 114, 111, 108]] := by
  refine ⟨by decide, ?_⟩
  exact ((claim_c2_string_roundtrip idCodec (fun b => rfl) [110, 97, 109, 101]
    [[97, 108, 105, 99, 101], [], [98, 111, 98], [99, 97, 114, 111, 108]]
    (by decide)).1).trans (by decide)

/-! ### Claim C8: row padding and truncation -/

theorem pad_getD (C : Nat) (r : List Bytes) (i : Nat) (hi : i < C) :
    (r.take C ++ List.replicate (C - r.length) ([] : Bytes)).getD i [] = r.getD i [] := by
  simp only [List.getD_eq_getElem?_getD]
  by_cases hir : i < r.length
  · rw [List.getElem?_append_left (by rw [List.length_take]; omega)]
    rw [List.getElem?_take, if_pos hi]
  · rw [List.getElem?_append_right (by rw [List.length_take]; omega)]
    rw [List.getElem?_replicate]
    have h2 : r[i]? = none := List.getElem?_eq_none (by omega)
    rw [h2]
    split <;> rfl

theorem transpose_pad (C : Nat) (rows : List (List Bytes)) :
    transpose C (rows.map (fun r => r.take C ++ List.replicate (C - r.length) [])) =
      transpose C rows := by
  unfold transpose
  refine List.map_congr_left (fun i hi => ?_)
  have hiC : i < C := List.mem_range.mp hi
  rw [List.map_map]
  refine List.map_congr_left (fun r _ => ?_)
  exact pad_getD C r i hiC

theorem write_pad (codec : Codec) (schema : List (Bytes × Nat)) (rows : List (List Bytes)) :
    write codec schema
      (rows.map (fun r => r.take schema.length ++ List.replicate (schema.length - r.length) [])) =
      write codec schema rows := by
  unfold write
  rw [transpose_pad, List.length_map]

/-- Schema of scenario S6: column a of type INT32, column b of type STRING. -/
def schemaS6 : List (Bytes × Nat) := [([97], DT_INT32), ([98], DT_STRING)]

/-- Rows of scenario S6: one short row, one exact row, one over-long row. -/
def rowsS6 : List (List Bytes) :=
  [[[49]], [[50], [104, 101, 108, 108, 111]], [[51], [104, 105], [101, 120, 116, 114, 97]]]

/-- C8: the writer treats rows shorter than the schema as right-padded with
empty strings (null slots) and ignores cells beyond the schema width: its
output is unchanged under explicit pad/truncate; and on scenario S6 column
a decodes to 1, 2, 3 and column b to null, hello, hi. -/
theorem claim_c8_row_padding (codec : Codec)
    (hcd : ∀ b, codec.decompress (codec.compress b) = some b)
    (schema : List (Bytes × Nat)) (rows : List (List Bytes))
    (hs : (write codec schemaS6 rowsS6).isSome = true) :
    write codec schema
      (rows.map (fun r => r.take schema.length ++ List.replicate (schema.length - r.length) [])) =
      write codec schema rows ∧
    writeRead codec schemaS6 rowsS6 [97] = some [some [49], some [50], some [51]] ∧
    writeRead codec schemaS6 rowsS6 [98] =
      some [none, some [104, 101, 108, 108, 111], some [104, 105]] := by
  refine ⟨write_pad codec schema rows, ?_, ?_⟩
  · obtain ⟨res, hw⟩ := Option.isSome_iff_exists.mp hs
    rw [writeRead, hw]
    simp only [Option.bind_eq_bind, Option.some_bind]
    have hm := read_column_write codec hcd schemaS6 rowsS6 res hw 0 (by decide)
      [97] rfl (fun k hk => by omega) (Or.inl rfl)
    rw [hm]
    decide
  · obtain ⟨res, hw⟩ := Option.isSome_iff_exists.mp hs
    rw [writeRead, hw]
    simp only [Option.bind_eq_bind, Option.some_bind]
    have hm := read_column_write codec hcd schemaS6 rowsS6 res hw 1 (by decide)
      [98] rfl (fun k hk => by
        have hk0 : k = 0 := by omega
        subst hk0
        decide) (Or.inr rfl)
    rw [hm]
    decide

/-- Witness for C8 with the identity codec on scenario S6. -/
theorem claim_c8_witness :
    (write idCodec schemaS6 rowsS6).isSome = true ∧
    writeRead idCodec schemaS6 rowsS6 [97] = some [some [49], some [50], some [51]] ∧
    writeRead idCodec schemaS6 rowsS6 [98] =
      some [none, some [104, 101, 108, 108, 111], some [104, 105]] := by
  refine ⟨by decide, ?_, ?_⟩
  · exact (claim_c8_row_padding idCodec (fun b => rfl) [] [] (by decide)).2.1
  · exact (claim_c8_row_padding idCodec (fun b => rfl) [] [] (by decide)).2.2

/-! ### Claim C3: header size and offset partition -/

theorem encodeBlocks_entrysizes (codec : Codec) (R : Nat) :
    ∀ (pairs : List ((Bytes × Nat) × List Bytes)) (blocks : List Block),
    encodeBlocks codec R pairs = some blocks →
    blocks.map (fun b => 2 + b.name.length + 1 + 8 + 8 + 8) =
      pairs.map (fun p => 2 + p.1.1.length + 1 + 8 + 8 + 8) := by
  intro pairs
  induction pairs with
  | nil =>
    intro blocks h
    simp only [encodeBlocks, Option.some.injEq] at h
    subst h
    rfl
  | cons p rest ih =>
    intro blocks h
    obtain ⟨⟨nm, dt⟩, vals⟩ := p
    rw [encodeBlocks] at h
    rcases hu : encodeColumn codec R dt vals with _ | un
    · rw [hu] at h; simp at h
    · rw [hu] at h
      simp only [Option.bind_eq_bind, Option.some_bind] at h
      rcases ht : encodeBlocks codec R rest with _ | tl
      · rw [ht] at h; simp at h
      · rw [ht] at h
        simp only [Option.bind_eq_bind, Option.some_bind, Option.pure_def,
          Option.some.injEq] at h
        subst h
        simp only [List.map_cons]
        rw [ih tl ht]

theorem zip_map_entrysize : ∀ (a : List (Bytes × Nat)) (b : List (List Bytes)),
    a.length = b.length →
    (a.zip b).map (fun p => 2 + p.1.1.length + 1 + 8 + 8 + 8) =
      a.map (fun s => 2 + s.1.length + 1 + 8 + 8 + 8) := by
  intro a
  induction a with
  | nil => intro b _; rfl
  | cons x xs ih =>
    intro b hb
    cases b with
    | nil => simp at hb
    | cons y ys =>
      rw [List.zip_cons_cons]
      simp only [List.map_cons]
      rw [ih ys (by simpa using hb)]

theorem assignMetas_length : ∀ (blocks : List Block) (start : Nat),
    (assignMetas start blocks).length = blocks.length := by
  intro blocks
  induction blocks with
  | nil => intro start; rfl
  | cons b bs ih => intro start; rw [assignMetas]; simp [ih]

theorem assignMetas_head : ∀ (blocks : List Block) (start : Nat), 0 < blocks.length →
    ((assignMetas start blocks).getD 0 default).offset = start := by
  intro blocks start h
  cases blocks with
  | nil => simp at h
  | cons b bs => rw [assignMetas]; rfl

theorem assignMetas_step : ∀ (blocks : List Block) (start i : Nat),
    i + 1 < blocks.length →
    ((assignMetas start blocks).getD (i + 1) default).offset =
      ((assignMetas start blocks).getD i default).offset +
      ((assignMetas start blocks).getD i default).compressed_size := by
  intro blocks
  induction blocks with
  | nil => intro start i h; simp at h
  | cons b bs ih =>
    intro start i h
    cases i with
    | zero =>
      rw [assignMetas]
      simp only [List.getD_cons_succ, List.getD_cons_zero]
      have hbs : 0 < bs.length := by simpa using h
      have e := assignMetas_head bs (start + b.comp.length) hbs
      rw [e]
    | succ i =>
      rw [assignMetas]
      simp only [List.getD_cons_succ]
      exact ih (start + b.comp.length) i (by simpa using h)

/-- C3: for every schema and rows on which the writer succeeds, the
recorded header size equals the sum over columns of
2 + name length + 1 + 8 + 8 + 8, the first column's recorded offset is
22 + header size, and each later column's offset is the previous offset
plus the previous compressed size. -/
theorem claim_c3_header_offsets (codec : Codec) (schema : List (Bytes × Nat))
    (rows : List (List Bytes))
    (hs : (write codec schema rows).isSome = true) :
    ((write codec schema rows).getD default).header_size =
      (schema.map (fun s => 2 + s.1.length + 1 + 8 + 8 + 8)).sum ∧
    (0 < ((write codec schema rows).getD default).metas.length →
      (((write codec schema rows).getD default).metas.getD 0 default).offset =
        22 + ((write codec schema rows).getD default).header_size) ∧
    (∀ i, i + 1 < ((write codec schema rows).getD default).metas.length →
      (((write codec schema rows).getD default).metas.getD (i + 1) default).offset =
        (((write codec schema rows).getD default).metas.getD i default).offset +
        (((write codec schema rows).getD default).metas.getD i default).compressed_size) := by
  obtain ⟨res, hw⟩ := Option.isSome_iff_exists.mp hs
  rw [hw]
  simp only [Option.getD_some]
  obtain ⟨blocks, header1, header, henc, hb1, hb, hlt32, hlt64, hlt16, hmetas,
    hhsz, hfile⟩ := write_inv hw
  have hlen_eq : header1.length = header.length := by
    rw [buildHeader_length _ header1 hb1, buildHeader_length _ header hb,
      List.map_map]
    have e : ((fun (m : ColumnMeta) => 2 + m.name.length + 1 + 8 + 8 + 8) ∘
        (fun m => { m with offset := 0 })) =
        (fun (m : ColumnMeta) => 2 + m.name.length + 1 + 8 + 8 + 8) := rfl
    rw [e, assignMetas_entrysum blocks 0,
      assignMetas_entrysum blocks (22 + header1.length)]
  have hplen : (schema.zip (transpose schema.length rows)).length = schema.length := by
    rw [List.length_zip, transpose_length]
    simp
  refine ⟨?_, ?_, ?_⟩
  · rw [hhsz, buildHeader_length _ header hb,
      assignMetas_entrysum blocks (22 + header1.length),
      encodeBlocks_entrysizes codec rows.length _ blocks henc,
      zip_map_entrysize schema (transpose schema.length rows)
        (by rw [transpose_length])]
  · intro hpos
    rw [hmetas] at hpos ⊢
    rw [assignMetas_head blocks (22 + header1.length)
      (by rw [assignMetas_length] at hpos; exact hpos)]
    rw [hhsz, hlen_eq]
  · intro i hi
    rw [hmetas] at hi ⊢
    exact assignMetas_step blocks (22 + header1.length) i
      (by rw [assignMetas_length] at hi; exact hi)

/-- Witness for C3 on scenario S6 with the identity codec. -/
theorem claim_c3_witness :
    (write idCodec schemaS6 rowsS6).isSome = true ∧
    ((write idCodec schemaS6 rowsS6).getD default).header_size =
      (schemaS6.map (fun s => 2 + s.1.length + 1 + 8 + 8 + 8)).sum := by
  refine ⟨by decide, ?_⟩
  exact (claim_c3_header_offsets idCodec schemaS6 rowsS6 (by decide)).1

/-! ### Claim C5: the VERSION byte is read but never validated -/

/-- C5 evaluation: take the writer's own output for a one-column table,
overwrite the VERSION byte (index 7, just after the 7 magic bytes) with 2,
and observe that reader construction still succeeds and `read_column`
still returns the data — the source stores the version byte in a local
variable and never checks it, so no UnsupportedVersion error exists. -/
theorem claim_c5_version_not_checked :
    (write idCodec [([97], DT_INT32)] [[[53]]]).isSome = true ∧
    (((write idCodec [([97], DT_INT32)] [[[53]]]).getD default).file.set 7 2).getD 7 0 = 2 ∧
    (read_header (((write idCodec [([97], DT_INT32)] [[[53]]]).getD default).file.set 7 2)).isSome
      = true ∧
    openAndRead idCodec
      (((write idCodec [([97], DT_INT32)] [[[53]]]).getD default).file.set 7 2) [97] =
      some [some [53]] := by
  exact ⟨by decide, by decide, by decide, by decide⟩

/-! ### Claim C6: STRING offsets are not validated on read -/

/-- The uncompressed (= stored, identity codec) block of the handcrafted
STRING-column file: u32 bitmap length, an all-zero bitmap, the given
offsets as u32 words, then the payload. -/
def strFileBlock (R : Nat) (offs : List Nat) (payload : Bytes) : Bytes :=
  pu32 ((R + 7) / 8) ++ List.replicate ((R + 7) / 8) 0 ++
    (offs.map pu32).flatten ++ payload

/-- The single header entry of the handcrafted file. -/
def strFileEntry (nm : Bytes) (unL : Nat) : Bytes :=
  pu16 nm.length ++ nm ++ pu8 DT_STRING ++ pu64 (22 + (27 + nm.length)) ++
    pu64 unL ++ pu64 unL

/-- A handcrafted single-STRING-column CCF file (identity compression) with
an arbitrary offsets array. -/
def mkStrFile (nm : Bytes) (R : Nat) (offs : List Nat) (payload : Bytes) : Bytes :=
  MAGIC ++ pu8 VERSION ++ pu32 (27 + nm.length) ++ pu64 R ++ pu16 1 ++
    strFileEntry nm (strFileBlock R offs payload).length ++ strFileBlock R offs payload

/-- C6 counterexample: a STRING block whose offsets array 2, 0, 10 is
non-monotonic (2 > 0) and whose last offset 10 exceeds the 3-byte payload,
yet `read_column` succeeds: the reversed span reads back as the empty
string and the overlong span is clamped — no InvalidEncoding error is
raised. -/
theorem claim_c6_counterexample :
    ((2 : Nat) > 0) ∧ ((10 : Nat) > ([97, 98, 99] : Bytes).length) ∧
    openAndRead idCodec (mkStrFile [115] 2 [2, 0, 10] [97, 98, 99]) [115] =
      some [some [], some [97, 98, 99]] ∧
    openAndRead idCodec (mkStrFile [115] 2 [2, 0, 10] [97, 98, 99]) [115] ≠ none := by
  exact ⟨by decide, by decide, by decide, by decide⟩

theorem packOffsets_of_lt : ∀ offs : List Nat, (∀ o ∈ offs, o < 2 ^ 32) →
    packOffsets offs = some ((offs.map pu32).flatten) := by
  intro offs
  induction offs with
  | nil => intro _; rfl
  | cons o os ih =>
    intro h
    rw [packOffsets]
    rw [show pack_u32 o = some (pu32 o) from by
      rw [pack_u32, if_pos (h o (by simp))]]
    simp only [Option.bind_eq_bind, Option.some_bind]
    rw [ih (fun x hx => h x (by simp [hx]))]
    simp only [Option.bind_eq_bind, Option.some_bind, Option.pure_def,
      Option.some.injEq]
    simp

theorem is_null_replicate_zero (nb k : Nat) (hk : k / 8 < nb) :
    is_null (List.replicate nb 0) k = some false := by
  unfold is_null
  have h : (List.replicate nb (0 : Nat)).get? (k / 8) = some 0 := by
    rw [List.get?_eq_getElem?, List.getElem?_replicate, if_pos hk]
  rw [h]
  simp

theorem strFileEntry_length (nm : Bytes) (unL : Nat) :
    (strFileEntry nm unL).length = 27 + nm.length := by
  simp [strFileEntry]
  omega

theorem utf8ValidAux_ascii : ∀ (fuel : Nat) (s : Bytes), s.length ≤ fuel →
    (∀ b ∈ s, b < 128) → utf8ValidAux fuel s = true := by
  intro fuel
  induction fuel with
  | zero =>
    intro s hlen _
    cases s with
    | nil => rfl
    | cons b rest => simp at hlen
  | succ fuel ih =>
    intro s hlen h
    cases s with
    | nil => rfl
    | cons b rest =>
      rw [utf8ValidAux.eq_def]
      simp only []
      rw [if_pos (h b (by simp))]
      exact ih rest (by simpa using hlen) (fun x hx => h x (by simp [hx]))

theorem utf8Valid_ascii (s : Bytes) (h : ∀ b ∈ s, b < 128) : utf8Valid s = true :=
  utf8ValidAux_ascii s.length s le_rfl h

/-- C6 amended: the reader performs no validation of a STRING column's
offsets array.  Whenever every clamped slice payload[offsets[i] :
offsets[i+1]] is decodable UTF-8 — here guaranteed by an ASCII payload —
`read_column` succeeds even on non-monotonic or out-of-range offsets,
returning each clamped slice (the empty string for a reversed span, a
slice truncated at the payload end for an overlong one).  The only
failure such a block can provoke is a UnicodeDecodeError from the
`.decode('utf-8')` at line 254 when a clamped slice cuts a multibyte
sequence — second conjunct: offsets 0, 1, 0 over the two-byte sequence
C3 A9 — never an InvalidEncoding offsets check. -/
theorem claim_c6_amended (nm : Bytes) (R : Nat) (offs : List Nat) (payload : Bytes)
    (hnm : nm.length < 2 ^ 16)
    (hR : R < 2 ^ 64)
    (hnb : (R + 7) / 8 < 2 ^ 32)
    (hoffs : offs.length = R + 1)
    (hofs_lt : ∀ o ∈ offs, o < 2 ^ 32)
    (hun : (strFileBlock R offs payload).length < 2 ^ 64)
    (hascii : ∀ b ∈ payload, b < 128) :
    (openAndRead idCodec (mkStrFile nm R offs payload) nm =
      some ((List.range R).map (fun i =>
        some ((payload.drop (offs.getD i 0)).take
          (offs.getD (i + 1) 0 - offs.getD i 0))))) ∧
    openAndRead idCodec (mkStrFile [115] 2 [0, 1, 0] [195, 169]) [115] = none := by
  refine ⟨?_, by decide⟩
  have hent : headerEntry
      ⟨nm, DT_STRING, 22 + (27 + nm.length), (strFileBlock R offs payload).length,
        (strFileBlock R offs payload).length⟩ =
      some (strFileEntry nm (strFileBlock R offs payload).length) := by
    unfold headerEntry strFileEntry
    rw [show pack_u16 nm.length = some (pu16 nm.length) from by
      rw [pack_u16, if_pos hnm]]
    simp only [Option.bind_eq_bind, Option.some_bind]
    rw [show pack_u8 DT_STRING = some (pu8 DT_STRING) from rfl]
    simp only [Option.bind_eq_bind, Option.some_bind]
    rw [show pack_u64 (22 + (27 + nm.length)) = some (pu64 (22 + (27 + nm.length))) from by
      rw [pack_u64, if_pos (by omega)]]
    simp only [Option.bind_eq_bind, Option.some_bind]
    rw [show pack_u64 (strFileBlock R offs payload).length =
        some (pu64 (strFileBlock R offs payload).length) from by
      rw [pack_u64, if_pos hun]]
    simp only [Option.bind_eq_bind, Option.some_bind, Option.pure_def,
      Option.some.injEq]
  have hbuild : buildHeader
      [⟨nm, DT_STRING, 22 + (27 + nm.length), (strFileBlock R offs payload).length,
        (strFileBlock R offs payload).length⟩] =
      some (strFileEntry nm (strFileBlock R offs payload).length) := by
    rw [buildHeader, hent]
    simp only [Option.bind_eq_bind, Option.some_bind]
    rw [buildHeader]
    simp
  have hhdr : read_header (mkStrFile nm R offs payload) =
      some ⟨R, 1, [⟨nm, DT_STRING, 22 + (27 + nm.length),
        (strFileBlock R offs payload).length, (strFileBlock R offs payload).length⟩]⟩ := by
    rw [mkStrFile, read_header]
    have h7 : MAGIC.length = 7 := rfl
    simp only [List.append_assoc]
    rw [if_neg (by rw [List.take_left' h7]; simp)]
    rw [List.drop_left' h7, readN_exact _ (length_pu8 _)]
    simp only [Option.bind_eq_bind, Option.some_bind]
    rw [readN_exact _ (length_pu32 _)]
    simp only [Option.bind_eq_bind, Option.some_bind]
    rw [readN_exact _ (length_pu64 _)]
    simp only [Option.bind_eq_bind, Option.some_bind]
    rw [readN_exact _ (length_pu16 _)]
    simp only [Option.bind_eq_bind, Option.some_bind]
    rw [unp_pu32 _ (by omega), unp_pu64 _ hR,
      unp_pu16 _ (by norm_num : (1 : Nat) < 2 ^ 16)]
    rw [List.take_left' (strFileEntry_length nm _)]
    have hpe := parseEntries_build _ _ hbuild []
    rw [List.append_nil] at hpe
    simp only [List.length_cons, List.length_nil] at hpe
    rw [hpe]
    rfl
  rw [openAndRead, hhdr]
  simp only [Option.bind_eq_bind, Option.some_bind]
  rw [read_column]
  rw [List.find?_cons_of_pos _ (by simp)]
  simp only [Option.bind_eq_bind, Option.some_bind]
  have hslice : ((mkStrFile nm R offs payload).drop (22 + (27 + nm.length))).take
      (strFileBlock R offs payload).length = strFileBlock R offs payload := by
    rw [mkStrFile]
    have hplen : (MAGIC ++ pu8 VERSION ++ pu32 (27 + nm.length) ++ pu64 R ++ pu16 1 ++
        strFileEntry nm (strFileBlock R offs payload).length).length =
        22 + (27 + nm.length) := by
      simp only [List.length_append, length_pu8, length_pu32, length_pu64, length_pu16,
        strFileEntry_length]
      rfl
    rw [List.drop_left' hplen, List.take_length]
  rw [hslice]
  rw [show idCodec.decompress (strFileBlock R offs payload) =
    some (strFileBlock R offs payload) from rfl]
  simp only [Option.bind_eq_bind, Option.some_bind]
  rw [strFileBlock]
  simp only [List.append_assoc]
  rw [readN_exact _ (length_pu32 _)]
  simp only [Option.bind_eq_bind, Option.some_bind]
  rw [unp_pu32 _ hnb, List.take_left' (List.length_replicate _ _),
    List.drop_left' (List.length_replicate _ _)]
  rw [if_neg (by decide : ¬ DT_STRING = DT_INT32),
    if_neg (by decide : ¬ DT_STRING = DT_FLOAT64)]
  simp only [if_true]
  have hro := readOffsets_pack offs ((offs.map pu32).flatten) payload
    (packOffsets_of_lt offs hofs_lt)
  rw [hoffs] at hro
  rw [hro]
  simp only [Option.bind_eq_bind, Option.some_bind]
  rw [readStrCells_spec (List.replicate ((R + 7) / 8) 0) offs payload R 0
    (fun k hk => by rw [Nat.zero_add, is_null_replicate_zero _ k (by omega)]; rfl)
    (fun k hk _ => utf8Valid_ascii _ (fun b hb =>
      hascii b (List.mem_of_mem_drop (List.mem_of_mem_take hb))))]
  refine congrArg some (List.map_congr_left (fun k hk => ?_))
  rw [Nat.zero_add, is_null_replicate_zero _ k (by
    have := List.mem_range.mp hk
    omega)]
  rfl

/-- Witness for the C6 amended theorem at the counterexample's offsets
array 2, 0, 10 over the ASCII 3-byte payload. -/
theorem claim_c6_amended_witness :
    ([115] : Bytes).length < 2 ^ 16 ∧ (2 : Nat) < 2 ^ 64 ∧
    ((2 : Nat) + 7) / 8 < 2 ^ 32 ∧
    ([2, 0, 10] : List Nat).length = 2 + 1 ∧
    (∀ o ∈ ([2, 0, 10] : List Nat), o < 2 ^ 32) ∧
    (strFileBlock 2 [2, 0, 10] [97, 98, 99]).length < 2 ^ 64 ∧
    (∀ b ∈ ([97, 98, 99] : Bytes), b < 128) ∧
    openAndRead idCodec (mkStrFile [115] 2 [2, 0, 10] [97, 98, 99]) [115] =
      some [some [], some [97, 98, 99]] := by
  refine ⟨by decide, by decide, by decide, by decide, by decide, by decide, by decide, ?_⟩
  exact ((claim_c6_amended [115] 2 [2, 0, 10] [97, 98, 99] (by decide) (by decide)
    (by decide) (by decide) (by decide) (by decide) (by decide)).1).trans (by decide)
